import Mathlib

/-!
Clair `config` package: authentication configuration (`auth.go`).

A shallow embedding of `vendor/github.com/quay/clair/v4/config/auth.go`:
the `Auth` aggregate with its `Any` predicate, and the YAML adapters of
`AuthPSK` and `AuthKeyserver`, which move byte-valued fields through
`base64.StdEncoding`.

Conventions of the embedding

* a Go `byte` is `Fin 256`; a Go `string` is its sequence of bytes;
* a Go slice is `Slice α`: the nil slice, or a non-nil slice with its elements;
* a Go pointer that may be nil is an `Option`;
* a Go `error` result is `Option Error`, `none` being the nil error;
* a method with a pointer receiver that assigns to the receiver takes the
  receiver's value and returns the updated value next to its result.
-/

namespace Config

/-! ## Go values -/

/-- A Go `byte`. -/
abbrev Byte := Fin 256

/-- A Go `string`: an immutable sequence of bytes. -/
abbrev GoString := List Byte

/-- The Go string written by an ASCII literal (one byte per character). -/
def ascii (s : String) : GoString :=
  s.toList.map (fun c => Fin.ofNat c.toNat)

/-- A Go slice value. `Slice.nil` is the nil slice; `Slice.mk l` is a non-nil
slice whose elements are `l` (possibly none). -/
inductive Slice (α : Type) where
  | nil : Slice α
  | mk (l : List α) : Slice α
deriving DecidableEq, Repr

/-- The elements of a slice, in order; a nil slice has none. -/
def Slice.elems {α : Type} : Slice α → List α
  | Slice.nil => []
  | Slice.mk l => l

/-- The Go `len` of a slice. -/
def Slice.len {α : Type} (s : Slice α) : Nat := s.elems.length

/-- A non-nil Go `error` value. `CorruptInputError` is the error type of
`encoding/base64` (an `int64` offset); `other` stands for any error value a
structural decoder callback may return. -/
inductive Error where
  | CorruptInputError (offset : Int) : Error
  | other (msg : String) : Error
deriving DecidableEq, Repr

/-! ## `encoding/base64`

`auth.go` imports the Go standard library package `encoding/base64` and calls
`base64.StdEncoding.EncodeToString` and `base64.StdEncoding.DecodeString`.
That package is not among the sources of this repository. The spec asks for
base64 in the "standard alphabet with padding" and for a decode error on
"invalid base64 alphabet or padding"; the definitions of this section give
that codec as the library implements it (`base64.go`): line breaks (CR, LF)
in the text are skipped, and unless the encoding is made `Strict` the unused
trailing bits of the last quantum are not checked.
-/

/-- The constant `StdPadding` (the rune `'='`). -/
def StdPadding : Int := 61

/-- The constant `NoPadding` (the rune `-1`). -/
def NoPadding : Int := -1

/-- The constant `encodeStd`, the standard alphabet. -/
def encodeStd : GoString :=
  ascii "ABCDEFGHIJKLMNOPQRSTUVWXYZabcdefghijklmnopqrstuvwxyz0123456789+/"

/-- The struct `Encoding`: `encode` is the `[64]byte` alphabet table,
`decodeMap` the `[256]uint8` inverse table, `padChar` the padding rune and
`strict` the strict-decoding flag. -/
structure Encoding where
  encode : List Byte
  decodeMap : List Nat
  padChar : Int
  strict : Bool

/-- The table lookup `enc.encode[i]`. -/
def Encoding.enc (e : Encoding) (i : Nat) : Byte := e.encode.getD i 0

/-- The table lookup `enc.decodeMap[c]`. -/
def Encoding.dec (e : Encoding) (c : Byte) : Nat := e.decodeMap.getD c.val 0xFF

/-- The function `NewEncoding`: the alphabet is copied, every entry of the
inverse table is set to `0xFF` and then entry `encoder[i]` is set to `i`;
padding is `StdPadding` and decoding is not strict. (Its panics, on an
alphabet that is not 64 bytes long or holds a line break, concern no alphabet
used here.) -/
def NewEncoding (encoder : GoString) : Encoding :=
  { encode := encoder
    decodeMap :=
      (List.range encoder.length).foldl
        (fun m i => m.set (encoder.getD i 0).val i) (List.replicate 256 0xFF)
    padChar := StdPadding
    strict := false }

/-- Modelled from the spec: the codec for the "standard alphabet with
padding" is the variable `StdEncoding = NewEncoding(encodeStd)` of
`encoding/base64`, a package of the Go standard library that is not among
the sources of this repository. -/
def StdEncoding : Encoding := NewEncoding encodeStd

/-- The method `Strict`: the same encoding with strict decoding enabled. -/
def Encoding.Strict (e : Encoding) : Encoding := { e with strict := true }

/-- The method `EncodedLen`. -/
def Encoding.EncodedLen (e : Encoding) (n : Nat) : Nat :=
  if e.padChar = NoPadding then n / 3 * 4 + (n % 3 * 8 + 5) / 6
  else (n + 2) / 3 * 4

/-- The padding bytes `byte(enc.padChar)` written by `Encode`, `k` of them,
or none when the encoding has no padding. -/
def Encoding.pad (e : Encoding) (k : Nat) : List Byte :=
  if e.padChar ≠ NoPadding then List.replicate k (Fin.ofNat e.padChar.toNat) else []

/-- The method `Encode`, as the sequence of bytes it writes to `dst`: each
full group of three source bytes gives four characters; a final group of one
or two bytes gives two or three characters followed by padding. -/
def Encoding.Encode (e : Encoding) : List Byte → List Byte
  | b0 :: b1 :: b2 :: src =>
    let val := b0.val <<< 16 ||| b1.val <<< 8 ||| b2.val
    e.enc (val >>> 18 &&& 0x3F) :: e.enc (val >>> 12 &&& 0x3F) ::
      e.enc (val >>> 6 &&& 0x3F) :: e.enc (val &&& 0x3F) :: e.Encode src
  | [b0, b1] =>
    let val := b0.val <<< 16 ||| b1.val <<< 8
    e.enc (val >>> 18 &&& 0x3F) :: e.enc (val >>> 12 &&& 0x3F) ::
      e.enc (val >>> 6 &&& 0x3F) :: e.pad 1
  | [b0] =>
    let val := b0.val <<< 16
    e.enc (val >>> 18 &&& 0x3F) :: e.enc (val >>> 12 &&& 0x3F) :: e.pad 2
  | [] => []

/-- Modelled from the spec: "base64-encode using standard alphabet with
padding" is the method `EncodeToString` of `encoding/base64` (Go standard
library, not among the sources of this repository): a buffer of
`EncodedLen(len(src))` bytes filled by `Encode`, as a string. -/
def Encoding.EncodeToString (e : Encoding) (src : Slice Byte) : GoString :=
  e.Encode src.elems

/-- What one call of `decodeQuantum` returns: `nsi` is the new source index,
`rest` the unread source `src[nsi:]`, `out` the `n` bytes it counts as written
to `dst`, and `err` the error. -/
structure Quantum where
  nsi : Nat
  rest : List Byte
  out : List Byte
  err : Option Error
deriving DecidableEq, Repr

/-- The loops `for si < len(src) && (src[si] == '\n' || src[si] == '\r') { si++ }`
of `decodeQuantum`, on the unread source and the index. -/
def skipNewlines : List Byte → Nat → List Byte × Nat
  | [], si => ([], si)
  | c :: cs, si => if c = 10 ∨ c = 13 then skipNewlines cs (si + 1) else (c :: cs, si)

/-- The end of `decodeQuantum`, after its loop: the four 6-bit values are
packed into `val`, the three bytes taken from it, and `dlen - 1` of them
counted, the `switch dlen` with its fallthroughs and strict checks. The loop
leaves `dlen` in 2, 3 or 4. -/
def decodeQuantum.finish (e : Encoding) (si : Nat) (rest : List Byte) (dlen : Nat)
    (dbuf : List Nat) (err : Option Error) : Quantum :=
  let val := dbuf.getD 0 0 <<< 18 ||| dbuf.getD 1 0 <<< 12 ||| dbuf.getD 2 0 <<< 6 |||
    dbuf.getD 3 0
  let d2 : Byte := Fin.ofNat (val >>> 0)
  let d1 : Byte := Fin.ofNat (val >>> 8)
  let d0 : Byte := Fin.ofNat (val >>> 16)
  match dlen with
  | 4 => ⟨si, rest, [d0, d1, d2], err⟩
  | 3 =>
    if e.strict ∧ d2 ≠ 0 then ⟨si, rest, [], some (Error.CorruptInputError (si - 1))⟩
    else ⟨si, rest, [d0, d1], err⟩
  | 2 =>
    if e.strict ∧ (d1 ≠ 0 ∨ d2 ≠ 0) then
      ⟨si, rest, [], some (Error.CorruptInputError (si - 2))⟩
    else ⟨si, rest, [d0], err⟩
  | _ => ⟨si, rest, [], err⟩

/-- The padding branch of `decodeQuantum`: a padding character was read at
position `j` of the quantum (`si` already counts it). -/
def decodeQuantum.padding (e : Encoding) (rest : List Byte) (si : Nat) (j : Nat)
    (dbuf : List Nat) : Quantum :=
  let tail (rest : List Byte) (si : Nat) : Quantum :=
    -- skip over newlines; anything left is trailing garbage
    let (rest, si) := skipNewlines rest si
    let err := if rest ≠ [] then some (Error.CorruptInputError si) else none
    decodeQuantum.finish e si rest j dbuf err
  match j with
  | 0 => ⟨si, rest, [], some (Error.CorruptInputError (si - 1))⟩
  | 1 => ⟨si, rest, [], some (Error.CorruptInputError (si - 1))⟩
  | 2 =>
    -- "==" is expected, the first "=" is already consumed
    match skipNewlines rest si with
    | ([], si) => ⟨si, [], [], some (Error.CorruptInputError si)⟩
    | (c :: rest, si) =>
      if (c.val : Int) ≠ e.padChar then
        ⟨si, c :: rest, [], some (Error.CorruptInputError (si - 1))⟩
      else tail rest (si + 1)
  | _ => tail rest si

/-- The loop `for j := 0; j < len(dbuf); j++` of `decodeQuantum`, on the
unread source, the source index `si`, the position `j` in the quantum and the
buffer `dbuf`; it ends in `decodeQuantum.finish` unless it returns early. -/
def decodeQuantum.loop (e : Encoding) : List Byte → Nat → Nat → List Nat → Quantum
  | [], si, j, dbuf =>
    if j = 0 then ⟨si, [], [], none⟩
    else if j = 1 ∨ e.padChar ≠ NoPadding then
      ⟨si, [], [], some (Error.CorruptInputError (si - j))⟩
    else decodeQuantum.finish e si [] j dbuf none
  | c :: rest, si, j, dbuf =>
    let out := e.dec c
    if out ≠ 0xFF then
      if j + 1 < 4 then decodeQuantum.loop e rest (si + 1) (j + 1) (dbuf.set j out)
      else decodeQuantum.finish e (si + 1) rest 4 (dbuf.set j out) none
    else if c = 10 ∨ c = 13 then decodeQuantum.loop e rest (si + 1) j dbuf
    else if (c.val : Int) ≠ e.padChar then
      ⟨si + 1, rest, [], some (Error.CorruptInputError ((si + 1 : Nat) - 1))⟩
    else decodeQuantum.padding e rest (si + 1) j dbuf

/-- The method `decodeQuantum(dst, src, si)`, given the unread source
`src[si:]` and `si`. -/
def Encoding.decodeQuantum (e : Encoding) (rest : List Byte) (si : Nat) : Quantum :=
  decodeQuantum.loop e rest si 0 [0, 0, 0, 0]

/-- The loop `for si < len(src)` of `Decode`: one `decodeQuantum` per turn,
`n += ninc`, and a return on the first error. `dst` holds the `n` bytes
counted so far. Every turn reads at least one byte, so `fuel` turns are
enough when `fuel` is the length of the unread source
(`Decode.loop_fuel`). -/
def Decode.loop (e : Encoding) : Nat → List Byte → Nat → List Byte → List Byte × Option Error
  | 0, _, _, dst => (dst, none)
  | _ + 1, [], _, dst => (dst, none)
  | fuel + 1, c :: rest, si, dst =>
    let q := e.decodeQuantum (c :: rest) si
    match q.err with
    | some err => (dst ++ q.out, some err)
    | none => Decode.loop e fuel q.rest q.nsi (dst ++ q.out)

/-- The method `Decode`, as the `n` bytes it writes and its error. Its two
fast loops, which take eight and four alphabet characters at a time, write
what `decodeQuantum` writes for the same characters and fall back to it
otherwise. -/
def Encoding.Decode (e : Encoding) (src : List Byte) : List Byte × Option Error :=
  if src.length = 0 then ([], none) else Decode.loop e src.length src 0 []

/-- Modelled from the spec: "base64-decode", failing on "invalid base64
alphabet or padding", is the method `DecodeString` of `encoding/base64` (Go
standard library, not among the sources of this repository): `dbuf[:n]`, a
non-nil slice, and the error of `Decode`. -/
def Encoding.DecodeString (e : Encoding) (s : GoString) : Slice Byte × Option Error :=
  let r := e.Decode s
  (Slice.mk r.1, r.2)

/-! ## `auth.go` -/

/-- The struct `AuthKeyserver`. -/
structure AuthKeyserver where
  API : GoString
  Intraservice : Slice Byte
deriving DecidableEq, Repr

/-- The struct `keyserverConfig`, the wire form of `AuthKeyserver`. -/
structure keyserverConfig where
  API : GoString
  Intraservice : GoString
deriving DecidableEq, Repr

/-- The struct `AuthPSK`. -/
structure AuthPSK where
  Key : Slice Byte
  Issuer : Slice GoString
deriving DecidableEq, Repr

/-- The struct `pskConfig`, the wire form of `AuthPSK`. -/
structure pskConfig where
  Key : GoString
  Issuer : Slice GoString
deriving DecidableEq, Repr

/-- The struct `Auth`: two pointers, each nil or pointing to a sub-config. -/
structure Auth where
  PSK : Option AuthPSK
  Keyserver : Option AuthKeyserver
deriving DecidableEq, Repr

/-- The method `Auth.Any`. -/
def Auth.Any (a : Auth) : Bool :=
  a.PSK != none || a.Keyserver != none

/-- The zero value of `keyserverConfig` (`var m keyserverConfig`). -/
def keyserverConfig.zero : keyserverConfig := { API := [], Intraservice := [] }

/-- The zero value of `pskConfig` (`var m pskConfig`). -/
def pskConfig.zero : pskConfig := { Key := [], Issuer := Slice.nil }

/-- The zero value of `AuthKeyserver`, a fresh receiver. -/
def AuthKeyserver.zero : AuthKeyserver := { API := [], Intraservice := Slice.nil }

/-- The zero value of `AuthPSK`, a fresh receiver. -/
def AuthPSK.zero : AuthPSK := { Key := Slice.nil, Issuer := Slice.nil }

/-- The method `AuthKeyserver.UnmarshalYAML`. The callback `f` is given the
zero-valued `m` by pointer: it returns `m` as it left it, and its error. -/
def AuthKeyserver.UnmarshalYAML (a : AuthKeyserver)
    (f : keyserverConfig → keyserverConfig × Option Error) : AuthKeyserver × Option Error :=
  match f keyserverConfig.zero with
  | (_, some _) => (a, none)
  | (m, none) =>
    let a := { a with API := m.API }
    match StdEncoding.DecodeString m.Intraservice with
    | (_, some err) => (a, some err)
    | (s, none) => ({ a with Intraservice := s }, none)

/-- The method `AuthKeyserver.MarshalYAML`: the wire form and the error. -/
def AuthKeyserver.MarshalYAML (a : AuthKeyserver) : keyserverConfig × Option Error :=
  ({ API := a.API, Intraservice := StdEncoding.EncodeToString a.Intraservice }, none)

/-- The method `AuthPSK.UnmarshalYAML`. The callback `f` is given the
zero-valued `m` by pointer: it returns `m` as it left it, and its error. -/
def AuthPSK.UnmarshalYAML (a : AuthPSK)
    (f : pskConfig → pskConfig × Option Error) : AuthPSK × Option Error :=
  match f pskConfig.zero with
  | (_, some _) => (a, none)
  | (m, none) =>
    let a := { a with Issuer := m.Issuer }
    match StdEncoding.DecodeString m.Key with
    | (_, some err) => (a, some err)
    | (s, none) => ({ a with Key := s }, none)

/-- The method `AuthPSK.MarshalYAML`: the wire form and the error. -/
def AuthPSK.MarshalYAML (a : AuthPSK) : pskConfig × Option Error :=
  ({ Key := StdEncoding.EncodeToString a.Key, Issuer := a.Issuer }, none)

/-- The structural decoder callback that succeeds with the wire form `m`. -/
def parsed {α : Type} (m : α) : α → α × Option Error := fun _ => (m, none)

/-! ## Predicates of the properties -/

/-- The characters of the standard alphabet: `A`-`Z`, `a`-`z`, `0`-`9`, `+`
and `/`. -/
def isStdChar (c : Byte) : Prop :=
  (65 ≤ c.val ∧ c.val ≤ 90) ∨ (97 ≤ c.val ∧ c.val ≤ 122) ∨ (48 ≤ c.val ∧ c.val ≤ 57) ∨
    c.val = 43 ∨ c.val = 47

instance isStdChar.decidable : DecidablePred isStdChar :=
  fun c => by unfold isStdChar; infer_instance

/-- Standard padded base64 text for `n` source bytes: its length is
`4 * ceil(n / 3)`, its characters are alphabet characters or `=`, and `=`
occurs only as a suffix of length `(3 - n mod 3) mod 3`. -/
def StdPadded (n : Nat) (s : GoString) : Prop :=
  s.length = 4 * ⌈(n : ℚ) / 3⌉₊ ∧ (∀ c ∈ s, isStdChar c ∨ c = 61) ∧
    ∃ body : List Byte, s = body ++ List.replicate ((3 - n % 3) % 3) 61 ∧ ∀ c ∈ body, c ≠ 61

/-- Canonical wire text: it holds no CR and no LF, and strict decoding
(`StdEncoding.Strict()`, which also checks that the unused trailing bits of
the last quantum are zero) accepts it. -/
def Canonical (k : GoString) : Prop :=
  (∀ c ∈ k, c ≠ 10 ∧ c ≠ 13) ∧ (StdEncoding.Strict.DecodeString k).2 = none

instance Canonical.decidable : DecidablePred Canonical :=
  fun k => by unfold Canonical; infer_instance

/-- Standard padded base64 text without line breaks, by its form alone:
groups of four alphabet characters, where the last group may end in one or
two `=`. -/
def wellFormed : GoString → Bool
  | [] => true
  | a :: b :: c :: d :: rest =>
    decide (isStdChar a) && decide (isStdChar b) &&
      ((decide (isStdChar c) && decide (isStdChar d) && wellFormed rest) ||
        (decide (isStdChar c) && decide (d = 61) && rest.isEmpty) ||
        (decide (c = 61) && decide (d = 61) && rest.isEmpty))
  | _ => false

/-- The text without its line breaks (CR and LF), which the decoder skips. -/
def stripLineBreaks (k : GoString) : GoString :=
  k.filter (fun c => decide (c ≠ 10 ∧ c ≠ 13))

/-! ## The tables of `StdEncoding` -/

theorem StdEncoding_padChar : StdEncoding.padChar = 61 := rfl

theorem StdEncoding_strict : StdEncoding.strict = false := rfl

theorem StdEncoding_pad (k : Nat) : StdEncoding.pad k = List.replicate k 61 := rfl

/-- The inverse table inverts the alphabet table. -/
theorem dec_enc_fin : ∀ i : Fin 64, StdEncoding.dec (StdEncoding.enc i.val) = i.val := by
  decide

theorem dec_enc {i : Nat} (h : i < 64) : StdEncoding.dec (StdEncoding.enc i) = i :=
  dec_enc_fin ⟨i, h⟩

/-- Every entry of the inverse table is a 6-bit value or `0xFF`. -/
theorem dec_range : ∀ c : Byte, StdEncoding.dec c < 64 ∨ StdEncoding.dec c = 0xFF := by
  set_option maxRecDepth 100000 in decide

/-- The alphabet table inverts the inverse table on the alphabet. -/
theorem enc_dec : ∀ c : Byte, StdEncoding.dec c ≠ 0xFF → StdEncoding.enc (StdEncoding.dec c) = c := by
  set_option maxRecDepth 100000 in decide

/-- Line breaks and the padding character are not in the alphabet. -/
theorem dec_special : StdEncoding.dec 10 = 0xFF ∧ StdEncoding.dec 13 = 0xFF ∧
    StdEncoding.dec 61 = 0xFF := by
  decide

/-! ## Bit arithmetic of a quantum -/

theorem and_63 (x : Nat) : x &&& 0x3F = x % 64 := Nat.and_pow_two_sub_one_eq_mod x 6

theorem pack3 (a b c : Nat) (hb : b < 256) (hc : c < 256) :
    a <<< 16 ||| b <<< 8 ||| c = a * 65536 + b * 256 + c := by
  have h1 : b <<< 8 ||| c = b * 256 + c := by
    rw [Nat.shiftLeft_eq, Nat.mul_comm b, ← Nat.mul_add_lt_is_or (by simpa using hc)]
  have h2 : b * 256 + c < 2 ^ 16 := by norm_num; omega
  rw [Nat.or_assoc, h1, Nat.shiftLeft_eq, Nat.mul_comm a, ← Nat.mul_add_lt_is_or h2]
  omega

theorem pack4 (a b c d : Nat) (hb : b < 64) (hc : c < 64) (hd : d < 64) :
    a <<< 18 ||| b <<< 12 ||| c <<< 6 ||| d = a * 262144 + b * 4096 + c * 64 + d := by
  have h1 : c <<< 6 ||| d = c * 64 + d := by
    rw [Nat.shiftLeft_eq, Nat.mul_comm c, ← Nat.mul_add_lt_is_or (by simpa using hd)]
  have h1' : c * 64 + d < 2 ^ 12 := by norm_num; omega
  have h2 : b <<< 12 ||| (c * 64 + d) = b * 4096 + c * 64 + d := by
    rw [Nat.shiftLeft_eq, Nat.mul_comm b, ← Nat.mul_add_lt_is_or h1']
    norm_num; omega
  have h2' : b * 4096 + c * 64 + d < 2 ^ 18 := by norm_num; omega
  rw [Nat.or_assoc, Nat.or_assoc, h1, h2, Nat.shiftLeft_eq, Nat.mul_comm a,
    ← Nat.mul_add_lt_is_or h2']
  omega

theorem byte_ofNat (x : Nat) (b : Byte) (h : x % 256 = b.val) : (Fin.ofNat x : Byte) = b := by
  apply Fin.ext
  simpa [Fin.ofNat] using h

/-! ## One quantum of encoder output, decoded -/

/-- An encoding with the inverse table of `StdEncoding` looks characters up as
`StdEncoding` does. -/
theorem dec_eq (e : Encoding) (hd : e.decodeMap = StdEncoding.decodeMap) (c : Byte) :
    e.dec c = StdEncoding.dec c := by
  simp [Encoding.dec, hd]

theorem loop_four (e : Encoding) (hd : e.decodeMap = StdEncoding.decodeMap)
    (s0 s1 s2 s3 : Nat) (h0 : s0 < 64) (h1 : s1 < 64) (h2 : s2 < 64)
    (h3 : s3 < 64) (rest : List Byte) (si : Nat) :
    e.decodeQuantum
      (StdEncoding.enc s0 :: StdEncoding.enc s1 :: StdEncoding.enc s2 :: StdEncoding.enc s3 ::
        rest) si
      = decodeQuantum.finish e (si + 4) rest 4 [s0, s1, s2, s3] none := by
  have e0 : s0 ≠ 255 := by omega
  have e1 : s1 ≠ 255 := by omega
  have e2 : s2 ≠ 255 := by omega
  have e3 : s3 ≠ 255 := by omega
  simp [Encoding.decodeQuantum, decodeQuantum.loop, dec_eq e hd, dec_enc h0, dec_enc h1,
    dec_enc h2, dec_enc h3, e0, e1, e2, e3]

theorem unpack (b0 b1 b2 : Byte) (v : Nat) (hv : v = b0.val * 65536 + b1.val * 256 + b2.val) :
    (Fin.ofNat (v >>> 16) : Byte) = b0 ∧ (Fin.ofNat (v >>> 8) : Byte) = b1 ∧
      (Fin.ofNat (v >>> 0) : Byte) = b2 := by
  have hb0 := b0.isLt
  have hb1 := b1.isLt
  have hb2 := b2.isLt
  simp only [Nat.shiftRight_eq_div_pow]
  exact ⟨byte_ofNat _ b0 (by omega), byte_ofNat _ b1 (by omega), byte_ofNat _ b2 (by omega)⟩

/-- The end of `decodeQuantum` when the packed value is made of the bytes
`b0`, `b1`, `b2`. -/
theorem finish_of (e : Encoding) (s0 s1 s2 s3 : Nat) (b0 b1 b2 : Byte)
    (h : s0 <<< 18 ||| s1 <<< 12 ||| s2 <<< 6 ||| s3 = b0.val * 65536 + b1.val * 256 + b2.val)
    (si : Nat) (rest : List Byte) (dlen : Nat) (err : Option Error) :
    decodeQuantum.finish e si rest dlen [s0, s1, s2, s3] err =
      match dlen with
      | 4 => ⟨si, rest, [b0, b1, b2], err⟩
      | 3 =>
        if e.strict ∧ b2 ≠ 0 then ⟨si, rest, [], some (Error.CorruptInputError (si - 1))⟩
        else ⟨si, rest, [b0, b1], err⟩
      | 2 =>
        if e.strict ∧ (b1 ≠ 0 ∨ b2 ≠ 0) then
          ⟨si, rest, [], some (Error.CorruptInputError (si - 2))⟩
        else ⟨si, rest, [b0], err⟩
      | _ => ⟨si, rest, [], err⟩ := by
  obtain ⟨h0, h1, h2⟩ := unpack b0 b1 b2 _ h
  simp only [decodeQuantum.finish, List.getD_cons_zero, List.getD_cons_succ, h0, h1, h2]

theorem sextets_lt (v : Nat) : v >>> 18 &&& 0x3F < 64 ∧ v >>> 12 &&& 0x3F < 64 ∧
    v >>> 6 &&& 0x3F < 64 ∧ v &&& 0x3F < 64 := by
  simp only [and_63]
  omega

theorem sextets_pack (v : Nat) (hv : v < 16777216) :
    (v >>> 18 &&& 0x3F) <<< 18 ||| (v >>> 12 &&& 0x3F) <<< 12 ||| (v >>> 6 &&& 0x3F) <<< 6 |||
      (v &&& 0x3F) = v := by
  obtain ⟨_, h1, h2, h3⟩ := sextets_lt v
  rw [pack4 _ _ _ _ h1 h2 h3]
  simp only [and_63, Nat.shiftRight_eq_div_pow]
  omega

theorem finish_full (e : Encoding) (b0 b1 b2 : Byte) (si : Nat) (rest : List Byte)
    (err : Option Error) :
    decodeQuantum.finish e si rest 4
      [(b0.val <<< 16 ||| b1.val <<< 8 ||| b2.val) >>> 18 &&& 0x3F,
       (b0.val <<< 16 ||| b1.val <<< 8 ||| b2.val) >>> 12 &&& 0x3F,
       (b0.val <<< 16 ||| b1.val <<< 8 ||| b2.val) >>> 6 &&& 0x3F,
       (b0.val <<< 16 ||| b1.val <<< 8 ||| b2.val) &&& 0x3F] err
      = ⟨si, rest, [b0, b1, b2], err⟩ := by
  have hb0 := b0.isLt
  have hp := pack3 b0.val b1.val b2.val b1.isLt b2.isLt
  rw [finish_of e _ _ _ _ b0 b1 b2 (by rw [sextets_pack _ (by omega), hp])]

theorem finish_two (e : Encoding) (b0 b1 : Byte) (si : Nat) (rest : List Byte)
    (err : Option Error) :
    decodeQuantum.finish e si rest 3
      [(b0.val <<< 16 ||| b1.val <<< 8) >>> 18 &&& 0x3F,
       (b0.val <<< 16 ||| b1.val <<< 8) >>> 12 &&& 0x3F,
       (b0.val <<< 16 ||| b1.val <<< 8) >>> 6 &&& 0x3F, 0] err
      = ⟨si, rest, [b0, b1], err⟩ := by
  have hb0 := b0.isLt
  have hb1 := b1.isLt
  have hp : b0.val <<< 16 ||| b1.val <<< 8 = b0.val * 65536 + b1.val * 256 + 0 := by
    rw [← pack3 _ _ _ hb1 (by norm_num)]; simp
  have h3 : (b0.val <<< 16 ||| b1.val <<< 8) &&& 0x3F = 0 := by
    rw [and_63, hp]; omega
  have hs := sextets_pack (b0.val <<< 16 ||| b1.val <<< 8) (by omega)
  rw [h3] at hs
  rw [finish_of e _ _ _ _ b0 b1 0 (by rw [hs, hp]; rfl)]
  simp

theorem finish_one (e : Encoding) (b0 : Byte) (si : Nat) (rest : List Byte)
    (err : Option Error) :
    decodeQuantum.finish e si rest 2
      [(b0.val <<< 16) >>> 18 &&& 0x3F, (b0.val <<< 16) >>> 12 &&& 0x3F, 0, 0] err
      = ⟨si, rest, [b0], err⟩ := by
  have hb0 := b0.isLt
  have hp : b0.val <<< 16 = b0.val * 65536 + 0 * 256 + 0 := by
    rw [← pack3 _ _ _ (by norm_num) (by norm_num)]; simp
  have h2 : (b0.val <<< 16) >>> 6 &&& 0x3F = 0 := by
    rw [and_63, hp, Nat.shiftRight_eq_div_pow]; omega
  have h3 : (b0.val <<< 16) &&& 0x3F = 0 := by
    rw [and_63, hp]; omega
  have hs := sextets_pack (b0.val <<< 16) (by omega)
  rw [h2, h3] at hs
  rw [finish_of e _ _ _ _ b0 0 0 (by rw [hs, hp]; rfl)]
  simp

theorem pad_rune : (((61 : Byte).val : Nat) : Int) = 61 := rfl

theorem loop_three (e : Encoding) (hd : e.decodeMap = StdEncoding.decodeMap)
    (hp : e.padChar = 61) (s0 s1 s2 : Nat) (h0 : s0 < 64) (h1 : s1 < 64) (h2 : s2 < 64)
    (si : Nat) :
    e.decodeQuantum [StdEncoding.enc s0, StdEncoding.enc s1, StdEncoding.enc s2, 61] si
      = decodeQuantum.finish e (si + 4) [] 3 [s0, s1, s2, 0] none := by
  have e0 : s0 ≠ 255 := by omega
  have e1 : s1 ≠ 255 := by omega
  have e2 : s2 ≠ 255 := by omega
  simp [Encoding.decodeQuantum, decodeQuantum.loop, decodeQuantum.padding, skipNewlines,
    dec_eq e hd, dec_enc h0, dec_enc h1, dec_enc h2, e0, e1, e2, dec_special, hp, pad_rune]

theorem loop_two (e : Encoding) (hd : e.decodeMap = StdEncoding.decodeMap)
    (hp : e.padChar = 61) (s0 s1 : Nat) (h0 : s0 < 64) (h1 : s1 < 64) (si : Nat) :
    e.decodeQuantum [StdEncoding.enc s0, StdEncoding.enc s1, 61, 61] si
      = decodeQuantum.finish e (si + 4) [] 2 [s0, s1, 0, 0] none := by
  have e0 : s0 ≠ 255 := by omega
  have e1 : s1 ≠ 255 := by omega
  simp [Encoding.decodeQuantum, decodeQuantum.loop, decodeQuantum.padding, skipNewlines,
    dec_eq e hd, dec_enc h0, dec_enc h1, e0, e1, dec_special, hp, pad_rune]

theorem list_induction3 {α : Type} {P : List α → Prop} (h0 : P []) (h1 : ∀ a, P [a])
    (h2 : ∀ a b, P [a, b]) (h3 : ∀ a b c l, P l → P (a :: b :: c :: l)) : ∀ l, P l
  | [] => h0
  | [a] => h1 a
  | [a, b] => h2 a b
  | a :: b :: c :: l => h3 a b c l (list_induction3 h0 h1 h2 h3 l)

/-- Decoding what `Encode` wrote gives back the source bytes, with no error,
from any source index and after any bytes already decoded. -/
theorem loop_Encode (e : Encoding) (hd : e.decodeMap = StdEncoding.decodeMap)
    (hp : e.padChar = 61) (bs : List Byte) : ∀ (fuel si : Nat) (dst : List Byte),
    (StdEncoding.Encode bs).length ≤ fuel →
    Decode.loop e fuel (StdEncoding.Encode bs) si dst = (dst ++ bs, none) := by
  induction bs using list_induction3 with
  | h0 =>
    intro fuel si dst _
    cases fuel <;> simp [Encoding.Encode, Decode.loop]
  | h1 a =>
    intro fuel si dst hf
    obtain ⟨h0, h1, _, _⟩ := sextets_lt (a.val <<< 16)
    cases fuel with
    | zero => simp [Encoding.Encode] at hf
    | succ fuel =>
      simp only [Encoding.Encode, StdEncoding_pad, List.replicate, Decode.loop]
      rw [loop_two e hd hp _ _ h0 h1, finish_one]
      cases fuel <;> simp [Decode.loop]
  | h2 a b =>
    intro fuel si dst hf
    obtain ⟨h0, h1, h2, _⟩ := sextets_lt (a.val <<< 16 ||| b.val <<< 8)
    cases fuel with
    | zero => simp [Encoding.Encode] at hf
    | succ fuel =>
      simp only [Encoding.Encode, StdEncoding_pad, List.replicate, Decode.loop]
      rw [loop_three e hd hp _ _ _ h0 h1 h2, finish_two]
      cases fuel <;> simp [Decode.loop]
  | h3 a b c l ih =>
    intro fuel si dst hf
    obtain ⟨h0, h1, h2, h3⟩ := sextets_lt (a.val <<< 16 ||| b.val <<< 8 ||| c.val)
    cases fuel with
    | zero => simp [Encoding.Encode] at hf
    | succ fuel =>
      simp only [Encoding.Encode, Decode.loop]
      rw [loop_four e hd _ _ _ _ h0 h1 h2 h3, finish_full]
      simp only []
      rw [ih fuel (si + 4) (dst ++ [a, b, c]) (by simp [Encoding.Encode] at hf; omega)]
      simp

/-! ## Termination of the decoding loop -/

theorem skipNewlines_length (l : List Byte) (si : Nat) :
    (skipNewlines l si).1.length ≤ l.length := by
  induction l generalizing si with
  | nil => simp [skipNewlines]
  | cons c cs ih =>
    simp only [skipNewlines]
    split
    · exact Nat.le_trans (ih _) (by simp)
    · simp

theorem finish_rest (e : Encoding) (si : Nat) (rest : List Byte) (dlen : Nat) (dbuf : List Nat)
    (err : Option Error) : (decodeQuantum.finish e si rest dlen dbuf err).rest = rest := by
  unfold decodeQuantum.finish
  simp only []
  split <;> (try split) <;> rfl

theorem padding_rest_length (e : Encoding) (rest : List Byte) (si j : Nat) (dbuf : List Nat) :
    (decodeQuantum.padding e rest si j dbuf).rest.length ≤ rest.length := by
  unfold decodeQuantum.padding
  have hs := skipNewlines_length
  split
  · simp
  · simp
  · split
    · simp
    · rename_i c r s heq
      have h1 := hs rest si
      rw [heq] at h1
      split
      · simpa using h1
      · simp only [finish_rest]
        have h2 := hs r (s + 1)
        simp only [List.length_cons] at h1
        omega
  · simp only [finish_rest]
    exact hs _ _

theorem loop_rest_length (e : Encoding) (l : List Byte) : ∀ (si j : Nat) (dbuf : List Nat),
    (decodeQuantum.loop e l si j dbuf).rest.length ≤ l.length ∧
      (l ≠ [] → (decodeQuantum.loop e l si j dbuf).rest.length < l.length) := by
  induction l with
  | nil =>
    intro si j dbuf
    simp only [decodeQuantum.loop]
    refine ⟨?_, fun h => absurd rfl h⟩
    split
    · simp
    · split
      · simp
      · simp [finish_rest]
  | cons c rest ih =>
    intro si j dbuf
    have key : (decodeQuantum.loop e (c :: rest) si j dbuf).rest.length < (c :: rest).length := by
      simp only [decodeQuantum.loop]
      split
      · split
        · exact Nat.lt_succ_of_le (ih _ _ _).1
        · simp [finish_rest]
      · split
        · exact Nat.lt_succ_of_le (ih _ _ _).1
        · split
          · simp
          · exact Nat.lt_succ_of_le (padding_rest_length _ _ _ _ _)
    exact ⟨Nat.le_of_lt key, fun _ => key⟩

/-- The fuel given to `Decode.loop` by `Decode` is enough: with at least as
much fuel as there are unread bytes, more fuel changes nothing. -/
theorem Decode.loop_fuel (e : Encoding) : ∀ (fuel : Nat) (rest : List Byte) (si : Nat)
    (dst : List Byte), rest.length ≤ fuel →
    Decode.loop e (fuel + 1) rest si dst = Decode.loop e fuel rest si dst := by
  intro fuel
  induction fuel with
  | zero =>
    intro rest si dst h
    have : rest = [] := List.length_eq_zero.mp (Nat.le_zero.mp h)
    subst this
    simp [Decode.loop]
  | succ fuel ih =>
    intro rest si dst h
    cases rest with
    | nil => simp [Decode.loop]
    | cons c rest =>
      rw [Decode.loop, Decode.loop]
      have hq := (loop_rest_length e (c :: rest) si 0 [0, 0, 0, 0]).2 (by simp)
      cases herr : (e.decodeQuantum (c :: rest) si).err with
      | some err => simp [herr]
      | none =>
        simp only [herr]
        apply ih
        simp only [Encoding.decodeQuantum, List.length_cons] at hq h ⊢
        omega

/-! ## Length of the encoder output -/

theorem Encode_length (bs : List Byte) :
    (StdEncoding.Encode bs).length = (bs.length + 2) / 3 * 4 := by
  induction bs using list_induction3 with
  | h0 => simp [Encoding.Encode]
  | h1 a => simp [Encoding.Encode, StdEncoding_pad]
  | h2 a b => simp [Encoding.Encode, StdEncoding_pad]
  | h3 a b c l ih =>
    simp only [Encoding.Encode, List.length_cons, ih]
    omega

/-- `EncodeToString` fills exactly its buffer of `EncodedLen(len(src))` bytes. -/
theorem EncodeToString_length (src : Slice Byte) :
    (StdEncoding.EncodeToString src).length = StdEncoding.EncodedLen src.len := by
  simp [Encoding.EncodeToString, Encode_length, Encoding.EncodedLen, Slice.len,
    StdEncoding_padChar, NoPadding]

/-- Decoding an encoded byte sequence gives the sequence back, with no error. -/
theorem DecodeString_EncodeToString (b : Slice Byte) :
    StdEncoding.DecodeString (StdEncoding.EncodeToString b) = (Slice.mk b.elems, none) := by
  simp only [Encoding.DecodeString, Encoding.Decode, Encoding.EncodeToString]
  split
  · rename_i h
    rw [Encode_length] at h
    have : b.elems = [] := List.length_eq_zero.mp (by omega)
    simp [this]
  · rw [loop_Encode StdEncoding rfl rfl _ _ _ _ (Nat.le_refl _)]
    simp

/-! ## Shape of the encoder output -/

theorem enc_isStdChar_fin : ∀ i : Fin 64, isStdChar (StdEncoding.enc i.val) := by
  decide

theorem enc_isStdChar (x : Nat) : isStdChar (StdEncoding.enc (x &&& 0x3F)) := by
  have h : x &&& 0x3F < 64 := by rw [and_63]; omega
  exact enc_isStdChar_fin ⟨_, h⟩

theorem isStdChar_ne_pad (c : Byte) (h : isStdChar c) : c ≠ 61 := by
  intro hc
  subst hc
  revert h
  decide

theorem ceil_div3 (n : Nat) : ⌈(n : ℚ) / 3⌉₊ = (n + 2) / 3 := by
  apply le_antisymm
  · rw [Nat.ceil_le, div_le_iff₀ (by norm_num)]
    have h : n ≤ (n + 2) / 3 * 3 := by omega
    exact_mod_cast h
  · have h := Nat.le_ceil ((n : ℚ) / 3)
    rw [div_le_iff₀ (by norm_num)] at h
    have h' : n ≤ ⌈(n : ℚ) / 3⌉₊ * 3 := by exact_mod_cast h
    omega

theorem Encode_shape (bs : List Byte) :
    ∃ body : List Byte,
      StdEncoding.Encode bs = body ++ List.replicate ((3 - bs.length % 3) % 3) 61 ∧
        ∀ c ∈ body, isStdChar c := by
  induction bs using list_induction3 with
  | h0 => exact ⟨[], by simp [Encoding.Encode], by simp⟩
  | h1 a =>
    refine ⟨[StdEncoding.enc ((a.val <<< 16) >>> 18 &&& 0x3F),
      StdEncoding.enc ((a.val <<< 16) >>> 12 &&& 0x3F)], ?_, ?_⟩
    · simp [Encoding.Encode, StdEncoding_pad, List.replicate]
    · intro c hc
      simp only [List.mem_cons, List.mem_singleton, List.not_mem_nil, or_false] at hc
      rcases hc with rfl | rfl <;> exact enc_isStdChar _
  | h2 a b =>
    refine ⟨[StdEncoding.enc ((a.val <<< 16 ||| b.val <<< 8) >>> 18 &&& 0x3F),
      StdEncoding.enc ((a.val <<< 16 ||| b.val <<< 8) >>> 12 &&& 0x3F),
      StdEncoding.enc ((a.val <<< 16 ||| b.val <<< 8) >>> 6 &&& 0x3F)], ?_, ?_⟩
    · simp [Encoding.Encode, StdEncoding_pad, List.replicate]
    · intro c hc
      simp only [List.mem_cons, List.mem_singleton, List.not_mem_nil, or_false] at hc
      rcases hc with rfl | rfl | rfl <;> exact enc_isStdChar _
  | h3 a b c l ih =>
    obtain ⟨body, hb, hall⟩ := ih
    refine ⟨StdEncoding.enc ((a.val <<< 16 ||| b.val <<< 8 ||| c.val) >>> 18 &&& 0x3F) ::
      StdEncoding.enc ((a.val <<< 16 ||| b.val <<< 8 ||| c.val) >>> 12 &&& 0x3F) ::
      StdEncoding.enc ((a.val <<< 16 ||| b.val <<< 8 ||| c.val) >>> 6 &&& 0x3F) ::
      StdEncoding.enc ((a.val <<< 16 ||| b.val <<< 8 ||| c.val) &&& 0x3F) :: body, ?_, ?_⟩
    · have hl : (a :: b :: c :: l).length % 3 = l.length % 3 := by
        simp only [List.length_cons]; omega
      rw [hl]
      simp only [Encoding.Encode, hb, List.cons_append]
    · intro x hx
      simp only [List.mem_cons] at hx
      rcases hx with rfl | rfl | rfl | rfl | hx
      · exact enc_isStdChar _
      · exact enc_isStdChar _
      · exact enc_isStdChar _
      · exact enc_isStdChar _
      · exact hall x hx

theorem EncodeToString_StdPadded (src : Slice Byte) :
    StdPadded src.len (StdEncoding.EncodeToString src) := by
  obtain ⟨body, hb, hall⟩ := Encode_shape src.elems
  refine ⟨?_, ?_, body, hb, fun c hc => isStdChar_ne_pad c (hall c hc)⟩
  · rw [ceil_div3, Encoding.EncodeToString, Encode_length, Slice.len]
    omega
  · intro c hc
    rw [Encoding.EncodeToString, hb, List.mem_append] at hc
    rcases hc with hc | hc
    · exact Or.inl (hall c hc)
    · exact Or.inr (List.eq_of_mem_replicate hc)

/-! ## Canonical wire text -/

theorem ofNat_val (x : Nat) : ((Fin.ofNat x : Byte)).val = x % 256 := rfl

theorem Strict_decodeMap : StdEncoding.Strict.decodeMap = StdEncoding.decodeMap := rfl

theorem Strict_padChar : StdEncoding.Strict.padChar = 61 := rfl

theorem Strict_strict : StdEncoding.Strict.strict = true := rfl

/-- The three bytes of a 24-bit value. -/
theorem bytes_of (v : Nat) (hv : v < 16777216) :
    v = (Fin.ofNat (v / 65536) : Byte).val * 65536 + (Fin.ofNat (v / 256) : Byte).val * 256 +
      (Fin.ofNat v : Byte).val := by
  simp only [ofNat_val]
  omega

/-- A full quantum: the three bytes it decodes to encode back to its four
characters. -/
theorem finish4_Encode (e : Encoding) (s0 s1 s2 s3 : Nat) (h0 : s0 < 64) (h1 : s1 < 64)
    (h2 : s2 < 64) (h3 : s3 < 64) (si : Nat) (rest : List Byte) (err : Option Error) :
    ∃ b0 b1 b2 : Byte,
      decodeQuantum.finish e si rest 4 [s0, s1, s2, s3] err = ⟨si, rest, [b0, b1, b2], err⟩ ∧
      StdEncoding.Encode [b0, b1, b2] =
        [StdEncoding.enc s0, StdEncoding.enc s1, StdEncoding.enc s2, StdEncoding.enc s3] := by
  have hp := pack4 s0 s1 s2 s3 h1 h2 h3
  obtain ⟨v, hv⟩ : ∃ v, v = s0 * 262144 + s1 * 4096 + s2 * 64 + s3 := ⟨_, rfl⟩
  rw [← hv] at hp
  have hb := bytes_of v (by omega)
  refine ⟨Fin.ofNat (v / 65536), Fin.ofNat (v / 256), Fin.ofNat v, ?_, ?_⟩
  · rw [finish_of e s0 s1 s2 s3 _ _ _ (hp.trans hb)]
  · simp only [Encoding.Encode]
    rw [pack3 _ _ _ (Fin.isLt _) (Fin.isLt _), ← hb]
    simp only [and_63, Nat.shiftRight_eq_div_pow]
    have a0 : v / 2 ^ 18 % 64 = s0 := by omega
    have a1 : v / 2 ^ 12 % 64 = s1 := by omega
    have a2 : v / 2 ^ 6 % 64 = s2 := by omega
    have a3 : v % 64 = s3 := by omega
    rw [a0, a1, a2, a3]

/-- A quantum of three characters and padding that strict decoding accepts:
the two bytes it decodes to encode back to it. -/
theorem finish3_Encode (e : Encoding) (hs : e.strict = true) (s0 s1 s2 : Nat) (h0 : s0 < 64)
    (h1 : s1 < 64) (h2 : s2 < 64) (si : Nat) (rest : List Byte) (err : Option Error)
    (h : (decodeQuantum.finish e si rest 3 [s0, s1, s2, 0] err).err = none) :
    ∃ b0 b1 : Byte,
      decodeQuantum.finish e si rest 3 [s0, s1, s2, 0] err = ⟨si, rest, [b0, b1], none⟩ ∧
      StdEncoding.Encode [b0, b1] =
        [StdEncoding.enc s0, StdEncoding.enc s1, StdEncoding.enc s2, 61] := by
  have hp := pack4 s0 s1 s2 0 h1 h2 (by norm_num)
  obtain ⟨v, hv⟩ : ∃ v, v = s0 * 262144 + s1 * 4096 + s2 * 64 + 0 := ⟨_, rfl⟩
  rw [← hv] at hp
  have hb := bytes_of v (by omega)
  have hf := finish_of e s0 s1 s2 0 _ _ _ (hp.trans hb) si rest 3 err
  simp only [hs, true_and] at hf
  rw [hf] at h ⊢
  by_cases h2z : (Fin.ofNat v : Byte) ≠ 0
  · simp [h2z] at h
  · simp only [h2z, if_false] at h ⊢
    subst h
    refine ⟨_, _, rfl, ?_⟩
    have hz : v % 256 = 0 := by
      have := congrArg Fin.val (not_not.mp h2z)
      simpa [ofNat_val] using this
    have hval : (Fin.ofNat (v / 65536) : Byte).val <<< 16 |||
        (Fin.ofNat (v / 256) : Byte).val <<< 8 = v := by
      have := pack3 (Fin.ofNat (v / 65536) : Byte).val (Fin.ofNat (v / 256) : Byte).val 0
        (Fin.isLt _) (by norm_num)
      rw [Nat.or_zero] at this
      rw [this]
      simp only [ofNat_val]
      omega
    simp only [Encoding.Encode, StdEncoding_pad, List.replicate, hval]
    simp only [and_63, Nat.shiftRight_eq_div_pow]
    have a0 : v / 2 ^ 18 % 64 = s0 := by omega
    have a1 : v / 2 ^ 12 % 64 = s1 := by omega
    have a2 : v / 2 ^ 6 % 64 = s2 := by omega
    rw [a0, a1, a2]

/-- A quantum of two characters and padding that strict decoding accepts:
the byte it decodes to encodes back to it. -/
theorem finish2_Encode (e : Encoding) (hs : e.strict = true) (s0 s1 : Nat) (h0 : s0 < 64)
    (h1 : s1 < 64) (si : Nat) (rest : List Byte) (err : Option Error)
    (h : (decodeQuantum.finish e si rest 2 [s0, s1, 0, 0] err).err = none) :
    ∃ b0 : Byte,
      decodeQuantum.finish e si rest 2 [s0, s1, 0, 0] err = ⟨si, rest, [b0], none⟩ ∧
      StdEncoding.Encode [b0] = [StdEncoding.enc s0, StdEncoding.enc s1, 61, 61] := by
  have hp := pack4 s0 s1 0 0 h1 (by norm_num) (by norm_num)
  obtain ⟨v, hv⟩ : ∃ v, v = s0 * 262144 + s1 * 4096 + 0 * 64 + 0 := ⟨_, rfl⟩
  rw [← hv] at hp
  have hb := bytes_of v (by omega)
  have hf := finish_of e s0 s1 0 0 _ _ _ (hp.trans hb) si rest 2 err
  simp only [hs, true_and] at hf
  rw [hf] at h ⊢
  by_cases hz : (Fin.ofNat (v / 256) : Byte) ≠ 0 ∨ (Fin.ofNat v : Byte) ≠ 0
  · simp [hz] at h
  · simp only [hz, if_false] at h ⊢
    subst h
    refine ⟨_, rfl, ?_⟩
    rw [not_or, not_not, not_not] at hz
    have hz1 : v / 256 % 256 = 0 := by
      have := congrArg Fin.val hz.1
      simpa [ofNat_val] using this
    have hz2 : v % 256 = 0 := by
      have := congrArg Fin.val hz.2
      simpa [ofNat_val] using this
    have hval : (Fin.ofNat (v / 65536) : Byte).val <<< 16 = v := by
      rw [Nat.shiftLeft_eq]
      simp only [ofNat_val]
      omega
    simp only [Encoding.Encode, StdEncoding_pad, List.replicate, hval]
    simp only [and_63, Nat.shiftRight_eq_div_pow]
    have a0 : v / 2 ^ 18 % 64 = s0 := by omega
    have a1 : v / 2 ^ 12 % 64 = s1 := by omega
    rw [a0, a1]

theorem skipNewlines_clean (l : List Byte) (si : Nat) (h : ∀ c ∈ l, c ≠ 10 ∧ c ≠ 13) :
    skipNewlines l si = (l, si) := by
  cases l with
  | nil => rfl
  | cons c cs =>
    have hc := h c (by simp)
    simp [skipNewlines, hc.1, hc.2]

theorem finish_err_some (e : Encoding) (si : Nat) (rest : List Byte) (dlen : Nat)
    (dbuf : List Nat) (x : Error) :
    (decodeQuantum.finish e si rest dlen dbuf (some x)).err ≠ none := by
  unfold decodeQuantum.finish
  simp only []
  split <;> (try split) <;> simp

/-- One turn of the loop of `decodeQuantum` on a character that is no line
break, when the quantum ends without error: the character is in the alphabet
and is stored, or it is the padding character. -/
theorem loop_step (e : Encoding) (hd : e.decodeMap = StdEncoding.decodeMap)
    (hp : e.padChar = 61) (c : Byte) (rest : List Byte) (si j : Nat) (dbuf : List Nat)
    (hc : c ≠ 10 ∧ c ≠ 13) (h : (decodeQuantum.loop e (c :: rest) si j dbuf).err = none) :
    (StdEncoding.dec c < 64 ∧ StdEncoding.enc (StdEncoding.dec c) = c ∧
      decodeQuantum.loop e (c :: rest) si j dbuf =
        if j + 1 < 4 then decodeQuantum.loop e rest (si + 1) (j + 1) (dbuf.set j (StdEncoding.dec c))
        else decodeQuantum.finish e (si + 1) rest 4 (dbuf.set j (StdEncoding.dec c)) none) ∨
    (c = 61 ∧ decodeQuantum.loop e (c :: rest) si j dbuf =
      decodeQuantum.padding e rest (si + 1) j dbuf) := by
  rcases dec_range c with hlt | hff
  · left
    have hne : StdEncoding.dec c ≠ 255 := by omega
    refine ⟨hlt, enc_dec c hne, ?_⟩
    simp [decodeQuantum.loop, dec_eq e hd, hne]
  · right
    have hc61 : c = 61 := by
      by_contra hne
      have hne' : ¬ ((c.val : Int) = 61) := by
        intro hh
        apply hne
        apply Fin.ext
        have : c.val = 61 := by exact_mod_cast hh
        simpa using this
      simp [decodeQuantum.loop, dec_eq e hd, hff, hc.1, hc.2, hp, hne'] at h
    subst hc61
    refine ⟨rfl, ?_⟩
    simp [decodeQuantum.loop, dec_eq e hd, hff, hp, pad_rune]

/-- The padding branch on a source without line breaks, when the quantum ends
without error: the padding completes the quantum and ends the source. -/
theorem padding_clean (e : Encoding) (hp : e.padChar = 61) (rest : List Byte) (si j : Nat)
    (dbuf : List Nat) (hn : ∀ c ∈ rest, c ≠ 10 ∧ c ≠ 13)
    (h : (decodeQuantum.padding e rest si j dbuf).err = none) :
    (j = 2 ∧ rest = [61] ∧
      decodeQuantum.padding e rest si j dbuf = decodeQuantum.finish e (si + 1) [] 2 dbuf none) ∨
    (3 ≤ j ∧ rest = [] ∧
      decodeQuantum.padding e rest si j dbuf = decodeQuantum.finish e si [] j dbuf none) := by
  match j, h with
  | 0, h => simp [decodeQuantum.padding] at h
  | 1, h => simp [decodeQuantum.padding] at h
  | 2, h =>
    left
    cases rest with
    | nil => simp [decodeQuantum.padding, skipNewlines] at h
    | cons c r =>
      have hr : ∀ x ∈ r, x ≠ 10 ∧ x ≠ 13 := fun x hx => hn x (by simp [hx])
      simp only [decodeQuantum.padding, skipNewlines_clean _ _ hn, skipNewlines_clean _ _ hr,
        hp] at h ⊢
      by_cases hc : (c.val : Int) = 61
      · have hc61 : c = 61 := by
          apply Fin.ext
          have : c.val = 61 := by exact_mod_cast hc
          simpa using this
        subst hc61
        cases r with
        | nil => simp [pad_rune]
        | cons d r => simp [pad_rune, finish_err_some] at h
      · simp [hc] at h
  | j + 3, h =>
    right
    simp only [decodeQuantum.padding, skipNewlines_clean _ _ hn] at h ⊢
    cases rest with
    | nil => simp
    | cons d r => simp [finish_err_some] at h

theorem Encode_cons3 (b0 b1 b2 : Byte) (l : List Byte) :
    StdEncoding.Encode (b0 :: b1 :: b2 :: l) =
      StdEncoding.Encode [b0, b1, b2] ++ StdEncoding.Encode l := by
  simp [Encoding.Encode]

/-- One quantum of a source without line breaks, when it ends without error:
it has read four characters, two alphabet characters and then two more, or
one and `=`, or `==`, the padding ending the source. -/
theorem quantum_shape (e : Encoding) (hd : e.decodeMap = StdEncoding.decodeMap)
    (hp : e.padChar = 61) (c0 : Byte) (r0 : List Byte) (si : Nat)
    (hn : ∀ c ∈ c0 :: r0, c ≠ 10 ∧ c ≠ 13)
    (h : (e.decodeQuantum (c0 :: r0) si).err = none) :
    ∃ (c1 c2 c3 : Byte) (rest : List Byte) (nsi : Nat),
      r0 = c1 :: c2 :: c3 :: rest ∧
      StdEncoding.dec c0 < 64 ∧ StdEncoding.enc (StdEncoding.dec c0) = c0 ∧
      StdEncoding.dec c1 < 64 ∧ StdEncoding.enc (StdEncoding.dec c1) = c1 ∧
      ((StdEncoding.dec c2 < 64 ∧ StdEncoding.enc (StdEncoding.dec c2) = c2 ∧
          StdEncoding.dec c3 < 64 ∧ StdEncoding.enc (StdEncoding.dec c3) = c3 ∧
          e.decodeQuantum (c0 :: r0) si = decodeQuantum.finish e nsi rest 4
            [StdEncoding.dec c0, StdEncoding.dec c1, StdEncoding.dec c2, StdEncoding.dec c3]
            none) ∨
        (StdEncoding.dec c2 < 64 ∧ StdEncoding.enc (StdEncoding.dec c2) = c2 ∧ c3 = 61 ∧
          rest = [] ∧
          e.decodeQuantum (c0 :: r0) si = decodeQuantum.finish e nsi [] 3
            [StdEncoding.dec c0, StdEncoding.dec c1, StdEncoding.dec c2, 0] none) ∨
        (c2 = 61 ∧ c3 = 61 ∧ rest = [] ∧
          e.decodeQuantum (c0 :: r0) si = decodeQuantum.finish e nsi [] 2
            [StdEncoding.dec c0, StdEncoding.dec c1, 0, 0] none)) := by
  unfold Encoding.decodeQuantum at h ⊢
  -- first character
  rcases loop_step e hd hp c0 r0 si 0 _ (hn c0 (by simp)) h with ⟨l0, i0, q0⟩ | ⟨_, q0⟩
  swap
  · rw [q0] at h
    simp [decodeQuantum.padding] at h
  rw [q0] at h ⊢
  simp only [Nat.reduceAdd, Nat.reduceLT, if_true, List.set_cons_zero] at h ⊢
  -- second character
  cases r0 with
  | nil => simp [decodeQuantum.loop, hp, NoPadding] at h
  | cons c1 r1 =>
  rcases loop_step e hd hp c1 r1 _ 1 _ (hn c1 (by simp)) h with ⟨l1, i1, q1⟩ | ⟨_, q1⟩
  swap
  · rw [q1] at h
    simp [decodeQuantum.padding] at h
  rw [q1] at h ⊢
  simp only [Nat.reduceAdd, Nat.reduceLT, if_true, List.set_cons_zero, List.set_cons_succ] at h ⊢
  -- third character
  cases r1 with
  | nil => simp [decodeQuantum.loop, hp, NoPadding] at h
  | cons c2 r2 =>
  have hn2 : ∀ c ∈ r2, c ≠ 10 ∧ c ≠ 13 := fun c hc => hn c (by simp [hc])
  rcases loop_step e hd hp c2 r2 _ 2 _ (hn c2 (by simp)) h with ⟨l2, i2, q2⟩ | ⟨p2, q2⟩
  swap
  · rw [q2] at h ⊢
    rcases padding_clean e hp r2 _ 2 _ hn2 h with ⟨_, hr, q⟩ | ⟨hj, _, _⟩
    swap
    · omega
    rw [q]
    subst hr
    exact ⟨c1, c2, 61, [], _, rfl, l0, i0, l1, i1, Or.inr (Or.inr ⟨p2, rfl, rfl, rfl⟩)⟩
  rw [q2] at h ⊢
  simp only [Nat.reduceAdd, Nat.reduceLT, if_true, List.set_cons_zero, List.set_cons_succ] at h ⊢
  -- fourth character
  cases r2 with
  | nil => simp [decodeQuantum.loop, hp, NoPadding] at h
  | cons c3 r3 =>
  have hn3 : ∀ c ∈ r3, c ≠ 10 ∧ c ≠ 13 := fun c hc => hn c (by simp [hc])
  rcases loop_step e hd hp c3 r3 _ 3 _ (hn c3 (by simp)) h with ⟨l3, i3, q3⟩ | ⟨p3, q3⟩
  swap
  · rw [q3] at h ⊢
    rcases padding_clean e hp r3 _ 3 _ hn3 h with ⟨hj, _, _⟩ | ⟨_, hr, q⟩
    · omega
    rw [q]
    subst hr
    exact ⟨c1, c2, c3, [], _, rfl, l0, i0, l1, i1, Or.inr (Or.inl ⟨l2, i2, p3, rfl, rfl⟩)⟩
  rw [q3]
  simp only [Nat.reduceAdd, Nat.lt_irrefl, if_false, List.set_cons_zero, List.set_cons_succ]
  exact ⟨c1, c2, c3, r3, _, rfl, l0, i0, l1, i1, Or.inl ⟨l2, i2, l3, i3, rfl⟩⟩

/-- One quantum of a source without line breaks that strict decoding accepts:
the bytes it gives encode back to the characters it read, and a quantum of
fewer than three bytes ends the source. -/
theorem quantum_canonical (e : Encoding) (hd : e.decodeMap = StdEncoding.decodeMap)
    (hp : e.padChar = 61) (hs : e.strict = true) (c0 : Byte) (r0 : List Byte) (si : Nat)
    (hn : ∀ c ∈ c0 :: r0, c ≠ 10 ∧ c ≠ 13)
    (h : (e.decodeQuantum (c0 :: r0) si).err = none) :
    ∃ (bs rest : List Byte) (nsi : Nat),
      e.decodeQuantum (c0 :: r0) si = ⟨nsi, rest, bs, none⟩ ∧
      c0 :: r0 = StdEncoding.Encode bs ++ rest ∧
      ((∃ b0 b1 b2, bs = [b0, b1, b2]) ∨ rest = []) := by
  obtain ⟨c1, c2, c3, rest, nsi, hr0, l0, i0, l1, i1, hcase⟩ := quantum_shape e hd hp c0 r0 si hn h
  subst hr0
  rcases hcase with ⟨l2, i2, l3, i3, q⟩ | ⟨l2, i2, p3, hr, q⟩ | ⟨p2, p3, hr, q⟩
  · obtain ⟨b0, b1, b2, hf, hE⟩ := finish4_Encode e _ _ _ _ l0 l1 l2 l3 nsi rest none
    refine ⟨[b0, b1, b2], rest, nsi, by rw [q, hf], ?_, Or.inl ⟨b0, b1, b2, rfl⟩⟩
    rw [hE, i0, i1, i2, i3]
    rfl
  · rw [q] at h
    obtain ⟨b0, b1, hf, hE⟩ := finish3_Encode e hs _ _ _ l0 l1 l2 _ _ _ h
    refine ⟨[b0, b1], [], nsi, by rw [q, hf], ?_, Or.inr rfl⟩
    rw [hE, i0, i1, i2, p3, hr]
    rfl
  · rw [q] at h
    obtain ⟨b0, hf, hE⟩ := finish2_Encode e hs _ _ l0 l1 _ _ _ h
    refine ⟨[b0], [], nsi, by rw [q, hf], ?_, Or.inr rfl⟩
    rw [hE, i0, i1, p2, p3, hr]
    rfl

/-- The decoding loop on a source without line breaks that strict decoding
accepts: the bytes it adds encode back to the source. -/
theorem loop_canonical (e : Encoding) (hd : e.decodeMap = StdEncoding.decodeMap)
    (hp : e.padChar = 61) (hs : e.strict = true) : ∀ (fuel : Nat) (k : List Byte) (si : Nat)
    (dst out : List Byte), (∀ c ∈ k, c ≠ 10 ∧ c ≠ 13) → k.length ≤ fuel →
    Decode.loop e fuel k si dst = (out, none) →
    ∃ bs, out = dst ++ bs ∧ StdEncoding.Encode bs = k := by
  intro fuel
  induction fuel with
  | zero =>
    intro k si dst out _ hlen h
    have hk : k = [] := List.length_eq_zero.mp (Nat.le_zero.mp hlen)
    subst hk
    simp only [Decode.loop, Prod.mk.injEq, and_true] at h
    exact ⟨[], by simp [h], by simp [Encoding.Encode]⟩
  | succ fuel ih =>
    intro k si dst out hn hlen h
    cases k with
    | nil =>
      simp only [Decode.loop, Prod.mk.injEq, and_true] at h
      exact ⟨[], by simp [h], by simp [Encoding.Encode]⟩
    | cons c0 r0 =>
      rw [Decode.loop] at h
      cases herr : (e.decodeQuantum (c0 :: r0) si).err with
      | some x => simp [herr] at h
      | none =>
        obtain ⟨bs, rest, nsi, hq, hk, hcase⟩ := quantum_canonical e hd hp hs c0 r0 si hn herr
        have hlt := (loop_rest_length e (c0 :: r0) si 0 [0, 0, 0, 0]).2 (by simp)
        simp only [herr, hq] at h
        rw [← Encoding.decodeQuantum, hq] at hlt
        have hrest : ∀ c ∈ rest, c ≠ 10 ∧ c ≠ 13 := fun c hc => hn c (by rw [hk]; simp [hc])
        obtain ⟨bs', hout, hE⟩ := ih rest nsi (dst ++ bs) out hrest
          (by simp only [List.length_cons] at hlt hlen; omega) h
        refine ⟨bs ++ bs', by rw [hout, List.append_assoc], ?_⟩
        rcases hcase with ⟨b0, b1, b2, rfl⟩ | hnil
        · rw [hk, ← hE]
          exact Encode_cons3 b0 b1 b2 bs'
        · subst hnil
          have hlen' := Encode_length bs'
          rw [hE] at hlen'
          have hbs' : bs' = [] := List.length_eq_zero.mp (by simp at hlen'; omega)
          subst hbs'
          simpa using hk.symm

/-- Canonical wire text is exactly what the encoder writes. -/
theorem Canonical_iff (k : GoString) : Canonical k ↔ ∃ b : List Byte, k = StdEncoding.Encode b := by
  constructor
  · rintro ⟨hn, hs⟩
    simp only [Encoding.DecodeString, Encoding.Decode] at hs
    split at hs
    · rename_i h0
      exact ⟨[], by simpa [Encoding.Encode] using List.length_eq_zero.mp h0⟩
    · obtain ⟨bs, _, hE⟩ := loop_canonical StdEncoding.Strict rfl rfl rfl k.length k 0 []
        (Decode.loop StdEncoding.Strict k.length k 0 []).1 hn (Nat.le_refl _)
        (by rw [← hs])
      exact ⟨bs, hE.symm⟩
  · rintro ⟨b, rfl⟩
    constructor
    · intro c hc
      obtain ⟨body, hb, hall⟩ := Encode_shape b
      rw [hb, List.mem_append] at hc
      rcases hc with hc | hc
      · have := hall c hc
        constructor <;> (rintro rfl; revert this; decide)
      · rw [List.eq_of_mem_replicate hc]
        decide
    · simp only [Encoding.DecodeString, Encoding.Decode]
      split
      · rfl
      · rw [loop_Encode StdEncoding.Strict rfl rfl _ _ _ _ (Nat.le_refl _)]


/-! ## Text the decoder accepts -/

theorem isStdChar_iff_dec : ∀ c : Byte, isStdChar c ↔ StdEncoding.dec c ≠ 0xFF := by
  set_option maxRecDepth 100000 in decide

theorem isStdChar_of_dec_lt {c : Byte} (h : StdEncoding.dec c < 64) : isStdChar c :=
  (isStdChar_iff_dec c).2 (by omega)

theorem dec_lt_of_isStdChar {c : Byte} (h : isStdChar c) :
    StdEncoding.dec c < 64 ∧ StdEncoding.enc (StdEncoding.dec c) = c := by
  have hne := (isStdChar_iff_dec c).1 h
  rcases dec_range c with hlt | hff
  · exact ⟨hlt, enc_dec c hne⟩
  · exact absurd hff hne

theorem finish_err_none (e : Encoding) (hs : e.strict = false) (si : Nat) (rest : List Byte)
    (dlen : Nat) (dbuf : List Nat) :
    (decodeQuantum.finish e si rest dlen dbuf none).err = none := by
  unfold decodeQuantum.finish
  simp only [hs]
  split <;> simp

/-- A source without line breaks that the decoding loop accepts is well
formed. -/
theorem loop_wellFormed (e : Encoding) (hd : e.decodeMap = StdEncoding.decodeMap)
    (hp : e.padChar = 61) : ∀ (fuel : Nat) (k : List Byte) (si : Nat) (dst : List Byte),
    (∀ c ∈ k, c ≠ 10 ∧ c ≠ 13) → k.length ≤ fuel → (Decode.loop e fuel k si dst).2 = none →
    wellFormed k = true := by
  intro fuel
  induction fuel with
  | zero =>
    intro k si dst _ hlen _
    have hk : k = [] := List.length_eq_zero.mp (Nat.le_zero.mp hlen)
    subst hk
    rfl
  | succ fuel ih =>
    intro k si dst hn hlen h
    cases k with
    | nil => rfl
    | cons c0 r0 =>
      rw [Decode.loop] at h
      cases herr : (e.decodeQuantum (c0 :: r0) si).err with
      | some x => simp [herr] at h
      | none =>
        simp only [herr] at h
        obtain ⟨c1, c2, c3, rest, nsi, hr0, l0, _, l1, _, hcase⟩ :=
          quantum_shape e hd hp c0 r0 si hn herr
        subst hr0
        have s0 := isStdChar_of_dec_lt l0
        have s1 := isStdChar_of_dec_lt l1
        rcases hcase with ⟨l2, _, l3, _, q⟩ | ⟨l2, _, p3, hr, _⟩ | ⟨p2, p3, hr, _⟩
        · have s2 := isStdChar_of_dec_lt l2
          have s3 := isStdChar_of_dec_lt l3
          have hrest : (e.decodeQuantum (c0 :: c1 :: c2 :: c3 :: rest) si).rest = rest := by
            rw [q, finish_rest]
          rw [hrest] at h
          have hw := ih rest _ _ (fun c hc => hn c (by simp [hc]))
            (by simp only [List.length_cons] at hlen; omega) h
          simp [wellFormed, s0, s1, s2, s3, hw]
        · subst hr
          subst p3
          simp [wellFormed, s0, s1, isStdChar_of_dec_lt l2]
        · subst hr
          subst p2
          subst p3
          simp [wellFormed, s0, s1]

/-- The decoding loop of a non-strict encoding accepts well-formed text. -/
theorem wellFormed_loop (e : Encoding) (hd : e.decodeMap = StdEncoding.decodeMap)
    (hp : e.padChar = 61) (hs : e.strict = false) : ∀ (fuel : Nat) (k : List Byte) (si : Nat)
    (dst : List Byte), wellFormed k = true → k.length ≤ fuel →
    (Decode.loop e fuel k si dst).2 = none := by
  intro fuel
  induction fuel with
  | zero =>
    intro k si dst _ _
    rfl
  | succ fuel ih =>
    intro k si dst hw hlen
    match k, hw, hlen with
    | [], _, _ => rfl
    | [_], hw, _ => simp [wellFormed] at hw
    | [_, _], hw, _ => simp [wellFormed] at hw
    | [_, _, _], hw, _ => simp [wellFormed] at hw
    | c0 :: c1 :: c2 :: c3 :: rest, hw, hlen =>
      simp only [wellFormed, Bool.and_eq_true, Bool.or_eq_true, decide_eq_true_eq,
        List.isEmpty_iff] at hw
      obtain ⟨⟨s0, s1⟩, hcase⟩ := hw
      obtain ⟨l0, i0⟩ := dec_lt_of_isStdChar s0
      obtain ⟨l1, i1⟩ := dec_lt_of_isStdChar s1
      rw [Decode.loop]
      rcases hcase with (⟨⟨s2, s3⟩, hrest⟩ | ⟨⟨s2, p3⟩, hr⟩) | ⟨⟨p2, p3⟩, hr⟩
      · obtain ⟨l2, i2⟩ := dec_lt_of_isStdChar s2
        obtain ⟨l3, i3⟩ := dec_lt_of_isStdChar s3
        have q := loop_four e hd _ _ _ _ l0 l1 l2 l3 rest si
        rw [i0, i1, i2, i3] at q
        have herr : (e.decodeQuantum (c0 :: c1 :: c2 :: c3 :: rest) si).err = none := by
          rw [q]; exact finish_err_none e hs _ _ _ _
        have hq : (e.decodeQuantum (c0 :: c1 :: c2 :: c3 :: rest) si).rest = rest := by
          rw [q, finish_rest]
        simp only [herr, hq]
        exact ih rest _ _ hrest (by simp only [List.length_cons] at hlen; omega)
      · obtain ⟨l2, i2⟩ := dec_lt_of_isStdChar s2
        subst hr
        subst p3
        have q := loop_three e hd hp _ _ _ l0 l1 l2 si
        rw [i0, i1, i2] at q
        have herr : (e.decodeQuantum [c0, c1, c2, 61] si).err = none := by
          rw [q]; exact finish_err_none e hs _ _ _ _
        have hq : (e.decodeQuantum [c0, c1, c2, 61] si).rest = [] := by
          rw [q, finish_rest]
        simp only [herr, hq]
        cases fuel <;> rfl
      · subst hr
        subst p2
        subst p3
        have q := loop_two e hd hp _ _ l0 l1 si
        rw [i0, i1] at q
        have herr : (e.decodeQuantum [c0, c1, 61, 61] si).err = none := by
          rw [q]; exact finish_err_none e hs _ _ _ _
        have hq : (e.decodeQuantum [c0, c1, 61, 61] si).rest = [] := by
          rw [q, finish_rest]
        simp only [herr, hq]
        cases fuel <;> rfl

/-- On text without line breaks, `StdEncoding.DecodeString` returns no error
exactly when the text is well formed. -/
theorem DecodeString_accepts_iff (k : GoString) (hn : ∀ c ∈ k, c ≠ 10 ∧ c ≠ 13) :
    (StdEncoding.DecodeString k).2 = none ↔ wellFormed k = true := by
  simp only [Encoding.DecodeString, Encoding.Decode]
  split
  · rename_i h0
    rw [List.length_eq_zero.mp h0]
    simp [wellFormed]
  · exact ⟨loop_wellFormed StdEncoding rfl rfl _ k 0 [] hn (Nat.le_refl _),
      fun hw => wellFormed_loop StdEncoding rfl rfl rfl _ k 0 [] hw (Nat.le_refl _)⟩

/-! ## Line breaks are skipped -/

theorem strip_cons_newline (c : Byte) (l : List Byte) (h : c = 10 ∨ c = 13) :
    stripLineBreaks (c :: l) = stripLineBreaks l := by
  rcases h with rfl | rfl <;> simp [stripLineBreaks]

theorem strip_cons_other (c : Byte) (l : List Byte) (h : ¬ (c = 10 ∨ c = 13)) :
    stripLineBreaks (c :: l) = c :: stripLineBreaks l := by
  rw [not_or] at h
  simp [stripLineBreaks, h.1, h.2]

theorem strip_clean (l : List Byte) : ∀ c ∈ stripLineBreaks l, c ≠ 10 ∧ c ≠ 13 := by
  intro c hc
  simpa using (List.mem_filter.mp hc).2

theorem skipNewlines_strip (l : List Byte) (si : Nat) :
    stripLineBreaks (skipNewlines l si).1 = stripLineBreaks l := by
  induction l generalizing si with
  | nil => rfl
  | cons c cs ih =>
    simp only [skipNewlines]
    split
    · rename_i hc
      rw [ih, strip_cons_newline c cs hc]
    · rfl

theorem skipNewlines_head (l : List Byte) (si : Nat) :
    (skipNewlines l si).1 = [] ∨
      ∃ c r, (skipNewlines l si).1 = c :: r ∧ ¬ (c = 10 ∨ c = 13) := by
  induction l generalizing si with
  | nil => exact Or.inl rfl
  | cons c cs ih =>
    simp only [skipNewlines]
    split
    · exact ih _
    · rename_i hc
      exact Or.inr ⟨c, cs, rfl, hc⟩

theorem skipNewlines_nil_iff (l : List Byte) (si : Nat) :
    (skipNewlines l si).1 = [] ↔ stripLineBreaks l = [] := by
  rw [← skipNewlines_strip l si]
  rcases skipNewlines_head l si with h | ⟨c, r, h, hc⟩
  · simp [h, stripLineBreaks]
  · rw [h, strip_cons_other c r hc]
    simp

theorem finish_err_iff (e : Encoding) (si si' : Nat) (rest rest' : List Byte) (dlen : Nat)
    (dbuf : List Nat) (err err' : Option Error) (h : err = none ↔ err' = none) :
    (decodeQuantum.finish e si rest dlen dbuf err).err = none ↔
      (decodeQuantum.finish e si' rest' dlen dbuf err').err = none := by
  unfold decodeQuantum.finish
  simp only []
  split
  · exact h
  · split <;> simp [h]
  · split <;> simp [h]
  · exact h

/-- The tail of the padding branch, on a source and on the source without its
line breaks. -/
theorem tail_strip (e : Encoding) (r : List Byte) (s s' j : Nat) (dbuf : List Nat) :
    ((decodeQuantum.finish e (skipNewlines r s).2 (skipNewlines r s).1 j dbuf
        (if (skipNewlines r s).1 ≠ [] then some (Error.CorruptInputError (skipNewlines r s).2)
          else none)).err = none ↔
      (decodeQuantum.finish e s' (stripLineBreaks r) j dbuf
        (if stripLineBreaks r ≠ [] then some (Error.CorruptInputError s') else none)).err
        = none) ∧
    ((decodeQuantum.finish e (skipNewlines r s).2 (skipNewlines r s).1 j dbuf
        (if (skipNewlines r s).1 ≠ [] then some (Error.CorruptInputError (skipNewlines r s).2)
          else none)).err = none →
      stripLineBreaks (skipNewlines r s).1 = stripLineBreaks r) := by
  refine ⟨?_, fun _ => skipNewlines_strip r s⟩
  apply finish_err_iff
  have := skipNewlines_nil_iff r s
  by_cases h : (skipNewlines r s).1 = []
  · simp [h, this.mp h]
  · have h' : stripLineBreaks r ≠ [] := fun hh => h (this.mpr hh)
    simp [h, h']

/-- The padding branch accepts a source exactly when it accepts the source
without its line breaks, and then both are read to the end. -/
theorem padding_strip (e : Encoding) (rest : List Byte) (si si' j : Nat) (dbuf : List Nat) :
    ((decodeQuantum.padding e rest si j dbuf).err = none ↔
      (decodeQuantum.padding e (stripLineBreaks rest) si' j dbuf).err = none) ∧
    ((decodeQuantum.padding e rest si j dbuf).err = none →
      stripLineBreaks (decodeQuantum.padding e rest si j dbuf).rest =
        (decodeQuantum.padding e (stripLineBreaks rest) si' j dbuf).rest) := by
  have hclean := fun (l : List Byte) (s : Nat) =>
    skipNewlines_clean (stripLineBreaks l) s (strip_clean l)
  match j with
  | 0 => simp [decodeQuantum.padding]
  | 1 => simp [decodeQuantum.padding]
  | 2 =>
    simp only [decodeQuantum.padding, hclean]
    rcases skipNewlines_head rest si with h | ⟨c, r, h, hc⟩
    · have hs := (skipNewlines_nil_iff rest si).mp h
      cases hsk : skipNewlines rest si with
      | mk r0 s0 =>
        rw [hsk] at h
        simp only at h
        subst h
        simp [hs]
    · have hs : stripLineBreaks rest = c :: stripLineBreaks r := by
        rw [← skipNewlines_strip rest si, h, strip_cons_other c r hc]
      cases hsk : skipNewlines rest si with
      | mk r0 s0 =>
        rw [hsk] at h
        simp only at h
        subst h
        simp only [hs]
        by_cases hpad : (c.val : Int) ≠ e.padChar
        · simp [hpad]
        · simp only [hpad, if_false]
          have ht := tail_strip e r (s0 + 1) (si' + 1) 2 dbuf
          simp only [finish_rest] at ht ⊢
          simp only [hclean]
          exact ht
  | j + 3 =>
    simp only [decodeQuantum.padding, hclean]
    have ht := tail_strip e rest si si' (j + 3) dbuf
    simp only [finish_rest] at ht ⊢
    exact ht

/-- One quantum ends without error on a source exactly when it does on the
source without its line breaks, and then the unread parts agree up to line
breaks. -/
theorem loop_strip (e : Encoding) (hd : e.decodeMap = StdEncoding.decodeMap) (l : List Byte) :
    ∀ (si si' j : Nat) (dbuf : List Nat),
    ((decodeQuantum.loop e l si j dbuf).err = none ↔
      (decodeQuantum.loop e (stripLineBreaks l) si' j dbuf).err = none) ∧
    ((decodeQuantum.loop e l si j dbuf).err = none →
      stripLineBreaks (decodeQuantum.loop e l si j dbuf).rest =
        (decodeQuantum.loop e (stripLineBreaks l) si' j dbuf).rest) := by
  induction l with
  | nil =>
    intro si si' j dbuf
    have hs : stripLineBreaks [] = [] := rfl
    simp only [hs, decodeQuantum.loop]
    split
    · simp [hs]
    · split
      · simp
      · refine ⟨finish_err_iff e _ _ _ _ _ _ _ _ Iff.rfl, fun _ => ?_⟩
        simp [finish_rest, hs]
  | cons c rest ih =>
    intro si si' j dbuf
    by_cases hnl : c = 10 ∨ c = 13
    · have hdec : e.dec c = 255 := by
        rw [dec_eq e hd]
        rcases hnl with rfl | rfl
        · exact dec_special.1
        · exact dec_special.2.1
      have hl : decodeQuantum.loop e (c :: rest) si j dbuf
          = decodeQuantum.loop e rest (si + 1) j dbuf := by
        simp [decodeQuantum.loop, hdec, hnl]
      rw [hl, strip_cons_newline c rest hnl]
      exact ih _ _ _ _
    · rw [strip_cons_other c rest hnl]
      simp only [decodeQuantum.loop]
      by_cases hdec : e.dec c ≠ 255
      · rw [if_pos hdec, if_pos hdec]
        by_cases hj : j + 1 < 4
        · rw [if_pos hj, if_pos hj]
          exact ih _ _ _ _
        · rw [if_neg hj, if_neg hj]
          refine ⟨finish_err_iff e _ _ _ _ _ _ _ _ Iff.rfl, fun _ => ?_⟩
          simp [finish_rest]
      · rw [if_neg hdec, if_neg hdec, if_neg hnl, if_neg hnl]
        by_cases hpad : (c.val : Int) ≠ e.padChar
        · rw [if_pos hpad, if_pos hpad]
          simp
        · rw [if_neg hpad, if_neg hpad]
          exact padding_strip e rest _ _ j dbuf

theorem Decode_loop_nil (e : Encoding) (fuel si : Nat) (dst : List Byte) :
    Decode.loop e fuel [] si dst = (dst, none) := by
  cases fuel <;> rfl

/-- The decoding loop accepts a source exactly when it accepts the source
without its line breaks. -/
theorem Decode_loop_strip (e : Encoding) (hd : e.decodeMap = StdEncoding.decodeMap) :
    ∀ (fuel fuel' : Nat) (k : List Byte) (si si' : Nat) (dst dst' : List Byte),
    k.length ≤ fuel → (stripLineBreaks k).length ≤ fuel' →
    ((Decode.loop e fuel k si dst).2 = none ↔
      (Decode.loop e fuel' (stripLineBreaks k) si' dst').2 = none) := by
  intro fuel
  induction fuel with
  | zero =>
    intro fuel' k si si' dst dst' hlen _
    have hk : k = [] := List.length_eq_zero.mp (Nat.le_zero.mp hlen)
    subst hk
    have hs : stripLineBreaks [] = [] := rfl
    simp [hs, Decode_loop_nil]
  | succ fuel ih =>
    intro fuel' k si si' dst dst' hlen hlen'
    cases k with
    | nil =>
      have hs : stripLineBreaks [] = [] := rfl
      simp [hs, Decode_loop_nil]
    | cons c0 r0 =>
      have hq := loop_strip e hd (c0 :: r0) si si' 0 [0, 0, 0, 0]
      have hlt := (loop_rest_length e (c0 :: r0) si 0 [0, 0, 0, 0]).2 (by simp)
      rw [← Encoding.decodeQuantum] at hq hlt
      have hlt' : (e.decodeQuantum (c0 :: r0) si).rest.length ≤ fuel := by
        simp only [List.length_cons] at hlt hlen; omega
      rw [Decode.loop]
      cases hs : stripLineBreaks (c0 :: r0) with
      | nil =>
        rw [hs] at hq
        have hq' : (decodeQuantum.loop e [] si' 0 [0, 0, 0, 0]).err = none := by
          simp [decodeQuantum.loop]
        have herr := hq.1.mpr hq'
        have hrest := hq.2 herr
        have hr' : (decodeQuantum.loop e [] si' 0 [0, 0, 0, 0]).rest = [] := by
          simp [decodeQuantum.loop]
        rw [hr'] at hrest
        simp only [herr, Decode_loop_nil]
        have := ih 0 (e.decodeQuantum (c0 :: r0) si).rest (e.decodeQuantum (c0 :: r0) si).nsi si'
          (dst ++ (e.decodeQuantum (c0 :: r0) si).out) dst' hlt' (by simp [hrest])
        rw [hrest, Decode_loop_nil] at this
        simpa using this
      | cons d r' =>
        rw [hs] at hq hlen'
        cases fuel' with
        | zero => simp at hlen'
        | succ fuel' =>
          rw [Decode.loop]
          have hlt2 := (loop_rest_length e (d :: r') si' 0 [0, 0, 0, 0]).2 (by simp)
          rw [← Encoding.decodeQuantum] at hlt2
          cases herr : (e.decodeQuantum (c0 :: r0) si).err with
          | some x =>
            have hne : (decodeQuantum.loop e (d :: r') si' 0 [0, 0, 0, 0]).err ≠ none := by
              intro hh
              have := hq.1.mpr hh
              rw [herr] at this
              simp at this
            rw [← Encoding.decodeQuantum] at hne
            cases herr' : (e.decodeQuantum (d :: r') si').err with
            | some y => simp
            | none => exact absurd herr' hne
          | none =>
            have herr' := hq.1.mp herr
            have hrest := hq.2 herr
            rw [← Encoding.decodeQuantum] at herr' hrest
            simp only [herr']
            rw [← hrest]
            apply ih
            · exact hlt'
            · rw [hrest]
              simp only [List.length_cons] at hlt2 hlen'
              omega

/-- The text `StdEncoding.DecodeString` accepts: it returns no error exactly
when the text, its line breaks left out, is well formed. -/
theorem DecodeString_accepts (k : GoString) :
    (StdEncoding.DecodeString k).2 = none ↔ wellFormed (stripLineBreaks k) = true := by
  rw [← DecodeString_accepts_iff (stripLineBreaks k) (strip_clean k)]
  have h1 : ∀ l : GoString, (StdEncoding.DecodeString l).2
      = (Decode.loop StdEncoding l.length l 0 []).2 := by
    intro l
    simp only [Encoding.DecodeString, Encoding.Decode]
    split
    · rename_i h0
      rw [List.length_eq_zero.mp h0]
      rfl
    · rfl
  rw [h1, h1]
  exact Decode_loop_strip StdEncoding rfl _ _ k 0 0 [] [] (Nat.le_refl _) (Nat.le_refl _)

/-! ## `Auth.Any` -/

/-- C1: for every `Auth` value `a`, `a.Any()` is true if and only if `a.PSK` is
non-nil or `a.Keyserver` is non-nil; in particular it is true when both are
present. `Any` is a total function to `bool`: it has no error result. -/
theorem Auth_Any_iff (a : Auth) :
    (a.Any = true ↔ (a.PSK ≠ none ∨ a.Keyserver ≠ none)) ∧
      (∀ (p : AuthPSK) (k : AuthKeyserver), Auth.Any ⟨some p, some k⟩ = true) := by
  refine ⟨?_, fun p k => by simp [Auth.Any]⟩
  simp [Auth.Any]

/-! ## Round trips from memory -/

/-- C2: PSK round trip. For every byte slice `b` and every string slice `s`,
`MarshalYAML` of `AuthPSK{Key: b, Issuer: s}` returns no error, and
`UnmarshalYAML` on a fresh receiver, fed the wire form it produced, returns no
error and leaves `Key` equal to `b` byte for byte and `Issuer` equal to `s`. -/
theorem AuthPSK_round_trip (b : Slice Byte) (s : Slice GoString) :
    (AuthPSK.MarshalYAML ⟨b, s⟩).2 = none ∧
      (AuthPSK.zero.UnmarshalYAML (parsed (AuthPSK.MarshalYAML ⟨b, s⟩).1)).2 = none ∧
      (AuthPSK.zero.UnmarshalYAML (parsed (AuthPSK.MarshalYAML ⟨b, s⟩).1)).1.Key.elems
        = b.elems ∧
      (AuthPSK.zero.UnmarshalYAML (parsed (AuthPSK.MarshalYAML ⟨b, s⟩).1)).1.Issuer = s := by
  simp [AuthPSK.MarshalYAML, AuthPSK.UnmarshalYAML, parsed, DecodeString_EncodeToString,
    Slice.elems]

/-- C3: Keyserver round trip. For every string `api` and every byte slice `t`,
`MarshalYAML` of `AuthKeyserver{API: api, Intraservice: t}` returns no error,
and `UnmarshalYAML` on a fresh receiver, fed the wire form it produced, returns
no error and leaves `API` equal to `api` and `Intraservice` equal to `t` byte
for byte. -/
theorem AuthKeyserver_round_trip (api : GoString) (t : Slice Byte) :
    (AuthKeyserver.MarshalYAML ⟨api, t⟩).2 = none ∧
      (AuthKeyserver.zero.UnmarshalYAML (parsed (AuthKeyserver.MarshalYAML ⟨api, t⟩).1)).2
        = none ∧
      (AuthKeyserver.zero.UnmarshalYAML (parsed (AuthKeyserver.MarshalYAML ⟨api, t⟩).1)).1.API
        = api ∧
      (AuthKeyserver.zero.UnmarshalYAML
        (parsed (AuthKeyserver.MarshalYAML ⟨api, t⟩).1)).1.Intraservice.elems = t.elems := by
  simp [AuthKeyserver.MarshalYAML, AuthKeyserver.UnmarshalYAML, parsed,
    DecodeString_EncodeToString, Slice.elems]

/-! ## Round trip from the wire -/

/-- C6 as stated fails: the wire keys `QR==` (unused trailing bits not zero)
and `QUJD` followed by a line feed are accepted without error, and
`MarshalYAML` of the deserialized value emits `QQ==` and `QUJD`, not the
strings that were read. -/
theorem AuthPSK_wire_round_trip_counterexample :
    (AuthPSK.zero.UnmarshalYAML (parsed ⟨ascii "QR==", Slice.mk [ascii "clair"]⟩)).2 = none ∧
      (AuthPSK.zero.UnmarshalYAML
        (parsed ⟨ascii "QR==", Slice.mk [ascii "clair"]⟩)).1.MarshalYAML.1.Key = ascii "QQ==" ∧
      (AuthPSK.zero.UnmarshalYAML
        (parsed ⟨ascii "QR==", Slice.mk [ascii "clair"]⟩)).1.MarshalYAML.1.Key ≠ ascii "QR==" ∧
      (AuthPSK.zero.UnmarshalYAML (parsed ⟨ascii "QUJD\n", Slice.mk [ascii "clair"]⟩)).2 = none ∧
      (AuthPSK.zero.UnmarshalYAML
        (parsed ⟨ascii "QUJD\n", Slice.mk [ascii "clair"]⟩)).1.MarshalYAML.1.Key
          ≠ ascii "QUJD\n" := by
  decide

/-- C6, amended: for every receiver and every wire input `x = (key, iss)` whose
structural parse succeeds and which `AuthPSK.UnmarshalYAML` accepts without
error, `MarshalYAML` of the deserialized value emits an `iss` slice identical
to the one of `x` and a key string that decodes to the same bytes as the key
of `x`; the emitted key is byte-identical to the key of `x` if and only if
that key is canonical: it holds no CR or LF and strict decoding accepts it
(its unused trailing bits are zero). -/
theorem AuthPSK_wire_round_trip (a : AuthPSK) (f : pskConfig → pskConfig × Option Error)
    (x : pskConfig) (hf : f pskConfig.zero = (x, none)) (hok : (a.UnmarshalYAML f).2 = none) :
    (a.UnmarshalYAML f).1.MarshalYAML.1.Issuer = x.Issuer ∧
      StdEncoding.DecodeString (a.UnmarshalYAML f).1.MarshalYAML.1.Key
        = StdEncoding.DecodeString x.Key ∧
      ((a.UnmarshalYAML f).1.MarshalYAML.1.Key = x.Key ↔ Canonical x.Key) := by
  unfold AuthPSK.UnmarshalYAML at hok ⊢
  rw [hf] at hok ⊢
  simp only [] at hok ⊢
  split
  · rename_i s err heq
    simp [heq] at hok
  · rename_i s heq
    have hs : s = Slice.mk s.elems := by
      have := congrArg Prod.fst heq
      simp only [Encoding.DecodeString] at this
      rw [← this]
      rfl
    refine ⟨rfl, ?_, ?_⟩
    · simp only [AuthPSK.MarshalYAML]
      rw [DecodeString_EncodeToString, heq, ← hs]
    · simp only [AuthPSK.MarshalYAML]
      constructor
      · intro h
        exact (Canonical_iff _).2 ⟨s.elems, h.symm⟩
      · intro h
        obtain ⟨b, hb⟩ := (Canonical_iff _).1 h
        have hd := DecodeString_EncodeToString (Slice.mk b)
        simp only [Encoding.EncodeToString, Slice.elems] at hd
        rw [← hb, heq] at hd
        have hsb : s = Slice.mk b := congrArg Prod.fst hd
        rw [hsb, hb]
        rfl

/-- Witness of C6, amended: the canonical key `QQ==` with issuer `clair` is
emitted again as it was read. -/
theorem AuthPSK_wire_round_trip_witness :
    (AuthPSK.zero.UnmarshalYAML
        (parsed ⟨ascii "QQ==", Slice.mk [ascii "clair"]⟩)).1.MarshalYAML.1
      = ⟨ascii "QQ==", Slice.mk [ascii "clair"]⟩ := by
  have h := AuthPSK_wire_round_trip AuthPSK.zero
    (parsed ⟨ascii "QQ==", Slice.mk [ascii "clair"]⟩)
    ⟨ascii "QQ==", Slice.mk [ascii "clair"]⟩ rfl (by decide)
  have hc : Canonical (ascii "QQ==") := by
    set_option maxRecDepth 10000 in decide
  have hk := h.2.2.2 hc
  have hi := h.1
  generalize (AuthPSK.zero.UnmarshalYAML
    (parsed ⟨ascii "QQ==", Slice.mk [ascii "clair"]⟩)).1.MarshalYAML.1 = w at hk hi
  obtain ⟨key, issuer⟩ := w
  simp only at hk hi
  rw [hk, hi]

/-! ## Errors of deserialization -/

/-- C4 as stated fails: the key `QUJD` followed by a line feed is not standard
padded base64 by form (the line feed is neither an alphabet character nor
`=`, and the text is not a sequence of groups of four), yet the structural
parse succeeding, `AuthPSK.UnmarshalYAML` returns the nil error, with the key
bytes `ABC`; `AuthKeyserver.UnmarshalYAML` returns the nil error on the same
intraservice text. -/
theorem UnmarshalYAML_decode_error_counterexample :
    (10 : Byte) ∈ ascii "QUJD\n" ∧ ¬ isStdChar 10 ∧ (10 : Byte) ≠ 61 ∧
      wellFormed (ascii "QUJD\n") = false ∧
      AuthPSK.zero.UnmarshalYAML (parsed ⟨ascii "QUJD\n", Slice.nil⟩)
        = (⟨Slice.mk (ascii "ABC"), Slice.nil⟩, none) ∧
      AuthKeyserver.zero.UnmarshalYAML (parsed ⟨[], ascii "QUJD\n"⟩)
        = (⟨[], Slice.mk (ascii "ABC")⟩, none) := by
  decide

/-- C4, amended: for every receiver and every wire input whose structural
parse succeeds (the callback returns the wire form `m` and no error) and whose
byte-valued field, with its line breaks (CR and LF, which the decoder skips)
left out, is not valid standard padded base64, that is, not a sequence of
groups of four alphabet characters of which the last may end in `=` or `==`
(bad alphabet or bad padding), `UnmarshalYAML` returns a non-nil error, and
that error is exactly the one `base64.StdEncoding.DecodeString` returns for
the field; for `AuthPSK` (field `key`) and for `AuthKeyserver` (field
`intraservice`). -/
theorem UnmarshalYAML_decode_error :
    (∀ (a : AuthPSK) (f : pskConfig → pskConfig × Option Error) (m : pskConfig),
      f pskConfig.zero = (m, none) → wellFormed (stripLineBreaks m.Key) = false →
        (a.UnmarshalYAML f).2 ≠ none ∧
          (a.UnmarshalYAML f).2 = (StdEncoding.DecodeString m.Key).2) ∧
    (∀ (a : AuthKeyserver) (f : keyserverConfig → keyserverConfig × Option Error)
      (m : keyserverConfig),
      f keyserverConfig.zero = (m, none) → wellFormed (stripLineBreaks m.Intraservice) = false →
        (a.UnmarshalYAML f).2 ≠ none ∧
          (a.UnmarshalYAML f).2 = (StdEncoding.DecodeString m.Intraservice).2) := by
  constructor
  · intro a f m hf hw
    have hrej : (StdEncoding.DecodeString m.Key).2 ≠ none := by
      intro h
      rw [(DecodeString_accepts m.Key).mp h] at hw
      exact Bool.noConfusion hw
    unfold AuthPSK.UnmarshalYAML
    rw [hf]
    simp only []
    split
    · rename_i s err heq
      simp [heq]
    · rename_i s heq
      rw [heq] at hrej
      exact absurd rfl hrej
  · intro a f m hf hw
    have hrej : (StdEncoding.DecodeString m.Intraservice).2 ≠ none := by
      intro h
      rw [(DecodeString_accepts m.Intraservice).mp h] at hw
      exact Bool.noConfusion hw
    unfold AuthKeyserver.UnmarshalYAML
    rw [hf]
    simp only []
    split
    · rename_i s err heq
      simp [heq]
    · rename_i s heq
      rw [heq] at hrej
      exact absurd rfl hrej

/-- Witness of C4, amended: the key `not-valid-base64!!` and the intraservice
token `not-valid-base64!!` are not well formed; the decoder rejects them at
input byte 3, and that error is returned. -/
theorem UnmarshalYAML_decode_error_witness :
    ((AuthPSK.zero.UnmarshalYAML (parsed ⟨ascii "not-valid-base64!!", Slice.nil⟩)).2 ≠ none ∧
      (AuthPSK.zero.UnmarshalYAML (parsed ⟨ascii "not-valid-base64!!", Slice.nil⟩)).2
        = (StdEncoding.DecodeString (ascii "not-valid-base64!!")).2) ∧
    ((AuthKeyserver.zero.UnmarshalYAML (parsed ⟨[], ascii "not-valid-base64!!"⟩)).2 ≠ none ∧
      (AuthKeyserver.zero.UnmarshalYAML (parsed ⟨[], ascii "not-valid-base64!!"⟩)).2
        = (StdEncoding.DecodeString (ascii "not-valid-base64!!")).2) ∧
    (StdEncoding.DecodeString (ascii "not-valid-base64!!")).2
      = some (Error.CorruptInputError 3) :=
  ⟨UnmarshalYAML_decode_error.1 AuthPSK.zero
      (parsed ⟨ascii "not-valid-base64!!", Slice.nil⟩) ⟨ascii "not-valid-base64!!", Slice.nil⟩
      rfl (by decide),
    UnmarshalYAML_decode_error.2 AuthKeyserver.zero
      (parsed ⟨[], ascii "not-valid-base64!!"⟩) ⟨[], ascii "not-valid-base64!!"⟩
      rfl (by decide),
    by decide⟩

/-- C5: for every receiver and every callback, when `UnmarshalYAML` returns an
error, the receiver's byte field (`AuthPSK.Key`, `AuthKeyserver.Intraservice`)
is what it was before the call: the bytes the decoder produced before it
failed are dropped. -/
theorem UnmarshalYAML_error_keeps_bytes :
    (∀ (a : AuthPSK) (f : pskConfig → pskConfig × Option Error),
      (a.UnmarshalYAML f).2 ≠ none → (a.UnmarshalYAML f).1.Key = a.Key) ∧
    (∀ (a : AuthKeyserver) (f : keyserverConfig → keyserverConfig × Option Error),
      (a.UnmarshalYAML f).2 ≠ none → (a.UnmarshalYAML f).1.Intraservice = a.Intraservice) := by
  constructor
  · intro a f
    unfold AuthPSK.UnmarshalYAML
    split
    · simp
    · split <;> simp
  · intro a f
    unfold AuthKeyserver.UnmarshalYAML
    split
    · simp
    · split <;> simp

/-- Witness of C5: on `QQ==Q` the decoder has produced the byte `A` when it
fails at input byte 4; a fresh receiver's byte field stays nil, and a
receiver's earlier bytes stay in place. -/
theorem UnmarshalYAML_error_keeps_bytes_witness :
    StdEncoding.DecodeString (ascii "QQ==Q") = (Slice.mk [65], some (Error.CorruptInputError 4)) ∧
      (AuthPSK.zero.UnmarshalYAML (parsed ⟨ascii "QQ==Q", Slice.mk [ascii "clair"]⟩)).1.Key
        = Slice.nil ∧
      (AuthKeyserver.UnmarshalYAML ⟨ascii "old", Slice.mk [1, 2, 3]⟩
        (parsed ⟨ascii "new", ascii "QQ==Q"⟩)).1.Intraservice = Slice.mk [1, 2, 3] :=
  ⟨by decide,
    UnmarshalYAML_error_keeps_bytes.1 AuthPSK.zero
      (parsed ⟨ascii "QQ==Q", Slice.mk [ascii "clair"]⟩) (by decide),
    UnmarshalYAML_error_keeps_bytes.2 ⟨ascii "old", Slice.mk [1, 2, 3]⟩
      (parsed ⟨ascii "new", ascii "QQ==Q"⟩) (by decide)⟩

/-- C7: structural-parse failure is swallowed. Whenever the callback `f`
returns an error, `UnmarshalYAML` returns the nil error and leaves every field
of the receiver as it was (at zero value for a fresh receiver), whatever `f`
wrote into the intermediate form `m`; for `AuthPSK` and for `AuthKeyserver`. -/
theorem UnmarshalYAML_structural_failure :
    (∀ (a : AuthPSK) (f : pskConfig → pskConfig × Option Error) (m : pskConfig) (e : Error),
      f pskConfig.zero = (m, some e) → a.UnmarshalYAML f = (a, none)) ∧
    (∀ (a : AuthKeyserver) (f : keyserverConfig → keyserverConfig × Option Error)
      (m : keyserverConfig) (e : Error),
      f keyserverConfig.zero = (m, some e) → a.UnmarshalYAML f = (a, none)) := by
  constructor
  · intro a f m e hf
    simp [AuthPSK.UnmarshalYAML, hf]
  · intro a f m e hf
    simp [AuthKeyserver.UnmarshalYAML, hf]

/-- Witness of C7: a callback that fills the intermediate form and then fails
leaves a fresh receiver at its zero value, with the nil error. -/
theorem UnmarshalYAML_structural_failure_witness :
    AuthPSK.zero.UnmarshalYAML
        (fun _ => (⟨ascii "c2VjcmV0", Slice.mk [ascii "clair"]⟩,
          some (Error.other "cannot unmarshal")))
        = (AuthPSK.zero, none) ∧
      AuthKeyserver.zero.UnmarshalYAML
        (fun _ => (⟨ascii "https://ks.example", ascii "!!"⟩,
          some (Error.other "cannot unmarshal")))
        = (AuthKeyserver.zero, none) :=
  ⟨UnmarshalYAML_structural_failure.1 AuthPSK.zero _
      ⟨ascii "c2VjcmV0", Slice.mk [ascii "clair"]⟩ (Error.other "cannot unmarshal") rfl,
    UnmarshalYAML_structural_failure.2 AuthKeyserver.zero _
      ⟨ascii "https://ks.example", ascii "!!"⟩ (Error.other "cannot unmarshal") rfl⟩

/-! ## Successful deserialization -/

/-- C8: for every receiver and every wire input `(k, iss)` whose structural
parse succeeds and whose `k` the base64 decoder accepts, `UnmarshalYAML`
returns no error and leaves `Issuer` exactly `iss` (the same slice: same
length, order and duplicates) and `Key` the standard-base64 decoding of `k`. -/
theorem AuthPSK_UnmarshalYAML_success (a : AuthPSK) (f : pskConfig → pskConfig × Option Error)
    (k : GoString) (iss : Slice GoString) (hf : f pskConfig.zero = (⟨k, iss⟩, none))
    (hk : (StdEncoding.DecodeString k).2 = none) :
    (a.UnmarshalYAML f).2 = none ∧ (a.UnmarshalYAML f).1.Issuer = iss ∧
      (a.UnmarshalYAML f).1.Key = (StdEncoding.DecodeString k).1 := by
  unfold AuthPSK.UnmarshalYAML
  rw [hf]
  simp only []
  split
  · rename_i s err heq
    rw [heq] at hk
    simp at hk
  · rename_i s heq
    simp [heq]

/-- Witness of C8: the key `AQID` with issuers `a`, `a`, `b`. -/
theorem AuthPSK_UnmarshalYAML_success_witness :
    (AuthPSK.zero.UnmarshalYAML
        (parsed ⟨ascii "AQID", Slice.mk [ascii "a", ascii "a", ascii "b"]⟩)).1
      = ⟨Slice.mk [1, 2, 3], Slice.mk [ascii "a", ascii "a", ascii "b"]⟩ := by
  have h := AuthPSK_UnmarshalYAML_success AuthPSK.zero
    (parsed ⟨ascii "AQID", Slice.mk [ascii "a", ascii "a", ascii "b"]⟩)
    (ascii "AQID") (Slice.mk [ascii "a", ascii "a", ascii "b"]) rfl (by decide)
  have hd : (StdEncoding.DecodeString (ascii "AQID")).1 = Slice.mk [1, 2, 3] := by decide
  rw [hd] at h
  generalize AuthPSK.zero.UnmarshalYAML
    (parsed ⟨ascii "AQID", Slice.mk [ascii "a", ascii "a", ascii "b"]⟩) = r at h
  obtain ⟨⟨key, issuer⟩, err⟩ := r
  simp only at h
  rw [h.2.1, h.2.2]

/-! ## Serialization -/

/-- C9: serialization never fails. For every `AuthPSK` value and every
`AuthKeyserver` value (nil and empty slices included), `MarshalYAML` returns
the nil error with a wire form whose non-byte field is the value's: `iss` is
`Issuer`, `api` is `API`. -/
theorem MarshalYAML_never_fails :
    (∀ a : AuthPSK, a.MarshalYAML.2 = none ∧ a.MarshalYAML.1.Issuer = a.Issuer) ∧
    (∀ a : AuthKeyserver, a.MarshalYAML.2 = none ∧ a.MarshalYAML.1.API = a.API) :=
  ⟨fun _ => ⟨rfl, rfl⟩, fun _ => ⟨rfl, rfl⟩⟩

/-! ## Shape of the serialized byte field -/

/-- C10: the byte field is serialized in the standard alphabet with padding.
For every key of `n` bytes, the key string emitted by `AuthPSK.MarshalYAML`
has length exactly `4 * ceil(n / 3)`, holds only characters from `A`-`Z`,
`a`-`z`, `0`-`9`, `+`, `/` and `=`, and has `=` only as a suffix of length
`(3 - n mod 3) mod 3`; the intraservice string emitted by
`AuthKeyserver.MarshalYAML` likewise. -/
theorem MarshalYAML_StdPadded :
    (∀ a : AuthPSK, StdPadded a.Key.len a.MarshalYAML.1.Key) ∧
    (∀ a : AuthKeyserver, StdPadded a.Intraservice.len a.MarshalYAML.1.Intraservice) :=
  ⟨fun a => EncodeToString_StdPadded a.Key, fun a => EncodeToString_StdPadded a.Intraservice⟩

/-! ## Presence of a sub-config -/

/-- C11: presence of the reference, not its content, drives `Any`. `Auth{}`
has `Any() == false`; for every `AuthPSK` value `p`, the zero-valued one
included, `Auth{PSK: &p}` has `Any() == true` (whatever `Keyserver` is); so an
absent PSK and a present PSK are distinct `Auth` values, and `Any` tells them
apart. -/
theorem Auth_Any_presence :
    Auth.Any ⟨none, none⟩ = false ∧
      (∀ (p : AuthPSK) (k : Option AuthKeyserver), Auth.Any ⟨some p, k⟩ = true) ∧
      Auth.Any ⟨some AuthPSK.zero, none⟩ = true ∧
      (∀ p : AuthPSK, (⟨none, none⟩ : Auth) ≠ ⟨some p, none⟩ ∧
        Auth.Any ⟨none, none⟩ ≠ Auth.Any ⟨some p, none⟩) := by
  refine ⟨rfl, fun p k => by simp [Auth.Any], rfl, fun p => ⟨?_, by simp [Auth.Any]⟩⟩
  intro h
  simp at h

/-! ## End-to-end scenarios -/

/-- C12: end-to-end PSK scenario. `UnmarshalYAML` on the wire form
`key = "c2VjcmV0"`, `iss = ["clair"]` returns no error and yields `Key` equal
to the six bytes of `secret` and `Issuer` equal to `["clair"]`; `MarshalYAML`
of that value returns no error and yields exactly `key = "c2VjcmV0"`,
`iss = ["clair"]`. -/
theorem AuthPSK_scenario :
    AuthPSK.zero.UnmarshalYAML (parsed ⟨ascii "c2VjcmV0", Slice.mk [ascii "clair"]⟩)
        = (⟨Slice.mk (ascii "secret"), Slice.mk [ascii "clair"]⟩, none) ∧
      ascii "secret" = [115, 101, 99, 114, 101, 116] ∧
      (AuthPSK.zero.UnmarshalYAML
        (parsed ⟨ascii "c2VjcmV0", Slice.mk [ascii "clair"]⟩)).1.MarshalYAML
        = (⟨ascii "c2VjcmV0", Slice.mk [ascii "clair"]⟩, none) := by
  decide

/-- C13: end-to-end Keyserver scenario. `UnmarshalYAML` on the wire form
`api = "https://ks.example"`, `intraservice = "dG9rZW4="` returns no error and
yields `API` equal to `https://ks.example`, unchanged, and `Intraservice`
equal to the five bytes of `token`. -/
theorem AuthKeyserver_scenario :
    AuthKeyserver.zero.UnmarshalYAML (parsed ⟨ascii "https://ks.example", ascii "dG9rZW4="⟩)
        = (⟨ascii "https://ks.example", Slice.mk (ascii "token")⟩, none) ∧
      ascii "token" = [116, 111, 107, 101, 110] := by
  decide

/-- C14: a present but empty sub-config is accepted. `AuthPSK.UnmarshalYAML`
on the wire form of `psk: {}` (the key is the empty string, `iss` is nil, or
an empty list) on a fresh receiver returns no error and yields a key of length
zero and an issuer list of length zero; the `Auth` holding that value has
`Any() == true`. `AuthKeyserver.UnmarshalYAML` on `api = ""`,
`intraservice = ""` returns no error with an empty `API` and an
`Intraservice` of length zero. -/
theorem UnmarshalYAML_empty :
    (AuthPSK.zero.UnmarshalYAML (parsed pskConfig.zero)).2 = none ∧
      (AuthPSK.zero.UnmarshalYAML (parsed pskConfig.zero)).1.Key.len = 0 ∧
      (AuthPSK.zero.UnmarshalYAML (parsed pskConfig.zero)).1.Issuer.len = 0 ∧
      (AuthPSK.zero.UnmarshalYAML (parsed ⟨[], Slice.mk []⟩)).2 = none ∧
      (AuthPSK.zero.UnmarshalYAML (parsed ⟨[], Slice.mk []⟩)).1.Key.len = 0 ∧
      (AuthPSK.zero.UnmarshalYAML (parsed ⟨[], Slice.mk []⟩)).1.Issuer.len = 0 ∧
      Auth.Any ⟨some (AuthPSK.zero.UnmarshalYAML (parsed pskConfig.zero)).1, none⟩ = true ∧
      (AuthKeyserver.zero.UnmarshalYAML (parsed ⟨[], []⟩)).2 = none ∧
      (AuthKeyserver.zero.UnmarshalYAML (parsed ⟨[], []⟩)).1.API = [] ∧
      (AuthKeyserver.zero.UnmarshalYAML (parsed ⟨[], []⟩)).1.Intraservice.len = 0 := by
  decide

/-! ## When deserialization fails, and what it leaves -/

/-- C15: exact failure condition. For every receiver and every callback `f`,
`AuthPSK.UnmarshalYAML` returns a non-nil error if and only if `f` succeeds
and the base64 decoder rejects the key string `f` produced; the error is then
the decoder's, and in every other case the result is nil. The same holds for
`AuthKeyserver.UnmarshalYAML` with the intraservice string. -/
theorem UnmarshalYAML_error_iff :
    (∀ (a : AuthPSK) (f : pskConfig → pskConfig × Option Error),
      ((a.UnmarshalYAML f).2 ≠ none ↔
        ((f pskConfig.zero).2 = none ∧
          (StdEncoding.DecodeString (f pskConfig.zero).1.Key).2 ≠ none)) ∧
      (a.UnmarshalYAML f).2 =
        if (f pskConfig.zero).2 = none then
          (StdEncoding.DecodeString (f pskConfig.zero).1.Key).2
        else none) ∧
    (∀ (a : AuthKeyserver) (f : keyserverConfig → keyserverConfig × Option Error),
      ((a.UnmarshalYAML f).2 ≠ none ↔
        ((f keyserverConfig.zero).2 = none ∧
          (StdEncoding.DecodeString (f keyserverConfig.zero).1.Intraservice).2 ≠ none)) ∧
      (a.UnmarshalYAML f).2 =
        if (f keyserverConfig.zero).2 = none then
          (StdEncoding.DecodeString (f keyserverConfig.zero).1.Intraservice).2
        else none) := by
  constructor
  · intro a f
    unfold AuthPSK.UnmarshalYAML
    rcases hf : f pskConfig.zero with ⟨m, _ | e⟩
    · simp only []
      rcases hd : StdEncoding.DecodeString m.Key with ⟨s, _ | err⟩ <;> simp
    · simp
  · intro a f
    unfold AuthKeyserver.UnmarshalYAML
    rcases hf : f keyserverConfig.zero with ⟨m, _ | e⟩
    · simp only []
      rcases hd : StdEncoding.DecodeString m.Intraservice with ⟨s, _ | err⟩ <;> simp
    · simp

/-- Witness of C15: a failing callback gives nil, a callback producing the key
`c2VjcmV0` gives nil, and a callback producing `not-valid-base64!!` gives the
decoder's error. -/
theorem UnmarshalYAML_error_iff_witness :
    ¬ (AuthPSK.zero.UnmarshalYAML
        (fun _ => (⟨ascii "!!", Slice.nil⟩, some (Error.other "cannot unmarshal")))).2 ≠ none ∧
      ¬ (AuthPSK.zero.UnmarshalYAML (parsed ⟨ascii "c2VjcmV0", Slice.nil⟩)).2 ≠ none ∧
      (AuthPSK.zero.UnmarshalYAML (parsed ⟨ascii "not-valid-base64!!", Slice.nil⟩)).2 ≠ none ∧
      (AuthKeyserver.zero.UnmarshalYAML (parsed ⟨[], ascii "not-valid-base64!!"⟩)).2 ≠ none :=
  ⟨fun h => absurd ((UnmarshalYAML_error_iff.1 AuthPSK.zero _).1.mp h).1 (by decide),
    fun h => absurd ((UnmarshalYAML_error_iff.1 AuthPSK.zero _).1.mp h).2 (by decide),
    (UnmarshalYAML_error_iff.1 AuthPSK.zero
      (parsed ⟨ascii "not-valid-base64!!", Slice.nil⟩)).1.mpr ⟨rfl, by decide⟩,
    (UnmarshalYAML_error_iff.2 AuthKeyserver.zero
      (parsed ⟨[], ascii "not-valid-base64!!"⟩)).1.mpr ⟨rfl, by decide⟩⟩

/-- C16: deserialization is not atomic on a decode error. For every receiver
and every wire input whose structural parse succeeds and whose byte-valued
field the base64 decoder rejects, `AuthPSK.UnmarshalYAML` returns the error
with `Issuer` already replaced by the wire `iss` slice and `Key` untouched,
and `AuthKeyserver.UnmarshalYAML` returns the error with `API` already
replaced by the wire `api` string and `Intraservice` untouched. -/
theorem UnmarshalYAML_not_atomic :
    (∀ (a : AuthPSK) (f : pskConfig → pskConfig × Option Error) (m : pskConfig),
      f pskConfig.zero = (m, none) → (StdEncoding.DecodeString m.Key).2 ≠ none →
        (a.UnmarshalYAML f).2 ≠ none ∧ (a.UnmarshalYAML f).1.Issuer = m.Issuer ∧
          (a.UnmarshalYAML f).1.Key = a.Key) ∧
    (∀ (a : AuthKeyserver) (f : keyserverConfig → keyserverConfig × Option Error)
      (m : keyserverConfig),
      f keyserverConfig.zero = (m, none) →
        (StdEncoding.DecodeString m.Intraservice).2 ≠ none →
        (a.UnmarshalYAML f).2 ≠ none ∧ (a.UnmarshalYAML f).1.API = m.API ∧
          (a.UnmarshalYAML f).1.Intraservice = a.Intraservice) := by
  constructor
  · intro a f m hf hd
    unfold AuthPSK.UnmarshalYAML
    rw [hf]
    simp only []
    rcases hdec : StdEncoding.DecodeString m.Key with ⟨s, _ | err⟩
    · rw [hdec] at hd
      exact absurd rfl hd
    · simp
  · intro a f m hf hd
    unfold AuthKeyserver.UnmarshalYAML
    rw [hf]
    simp only []
    rcases hdec : StdEncoding.DecodeString m.Intraservice with ⟨s, _ | err⟩
    · rw [hdec] at hd
      exact absurd rfl hd
    · simp

/-- Witness of C16: a receiver holding key bytes 1, 2, 3 and issuer `old`,
given the key `not-valid-base64!!` and issuer `new`, ends with issuer `new`
and its key bytes in place; a keyserver receiver likewise ends with the new
`API` and its old `Intraservice`. -/
theorem UnmarshalYAML_not_atomic_witness :
    ((AuthPSK.UnmarshalYAML ⟨Slice.mk [1, 2, 3], Slice.mk [ascii "old"]⟩
          (parsed ⟨ascii "not-valid-base64!!", Slice.mk [ascii "new"]⟩)).2 ≠ none ∧
        (AuthPSK.UnmarshalYAML ⟨Slice.mk [1, 2, 3], Slice.mk [ascii "old"]⟩
          (parsed ⟨ascii "not-valid-base64!!", Slice.mk [ascii "new"]⟩)).1.Issuer
          = Slice.mk [ascii "new"] ∧
        (AuthPSK.UnmarshalYAML ⟨Slice.mk [1, 2, 3], Slice.mk [ascii "old"]⟩
          (parsed ⟨ascii "not-valid-base64!!", Slice.mk [ascii "new"]⟩)).1.Key
          = Slice.mk [1, 2, 3]) ∧
      ((AuthKeyserver.UnmarshalYAML ⟨ascii "old", Slice.mk [1, 2, 3]⟩
          (parsed ⟨ascii "new", ascii "QQ=Q"⟩)).2 ≠ none ∧
        (AuthKeyserver.UnmarshalYAML ⟨ascii "old", Slice.mk [1, 2, 3]⟩
          (parsed ⟨ascii "new", ascii "QQ=Q"⟩)).1.API = ascii "new" ∧
        (AuthKeyserver.UnmarshalYAML ⟨ascii "old", Slice.mk [1, 2, 3]⟩
          (parsed ⟨ascii "new", ascii "QQ=Q"⟩)).1.Intraservice = Slice.mk [1, 2, 3]) :=
  ⟨UnmarshalYAML_not_atomic.1 ⟨Slice.mk [1, 2, 3], Slice.mk [ascii "old"]⟩
      (parsed ⟨ascii "not-valid-base64!!", Slice.mk [ascii "new"]⟩)
      ⟨ascii "not-valid-base64!!", Slice.mk [ascii "new"]⟩ rfl (by decide),
    UnmarshalYAML_not_atomic.2 ⟨ascii "old", Slice.mk [1, 2, 3]⟩
      (parsed ⟨ascii "new", ascii "QQ=Q"⟩) ⟨ascii "new", ascii "QQ=Q"⟩ rfl (by decide)⟩

/-- C17: a successful deserialization depends only on the wire input. For
any two receivers, whatever they held, and any wire input whose structural
parse succeeds and whose byte-valued field the base64 decoder accepts,
`UnmarshalYAML` returns no error on either and leaves them equal in every
field: both fields are overwritten, with the wire value and the decoded
bytes; for `AuthPSK` and for `AuthKeyserver`. -/
theorem UnmarshalYAML_receiver_independent :
    (∀ (r1 r2 : AuthPSK) (f1 f2 : pskConfig → pskConfig × Option Error) (m : pskConfig),
      f1 pskConfig.zero = (m, none) → f2 pskConfig.zero = (m, none) →
        (StdEncoding.DecodeString m.Key).2 = none →
        (r1.UnmarshalYAML f1).2 = none ∧ (r2.UnmarshalYAML f2).2 = none ∧
          (r1.UnmarshalYAML f1).1 = (r2.UnmarshalYAML f2).1 ∧
          (r1.UnmarshalYAML f1).1 = ⟨(StdEncoding.DecodeString m.Key).1, m.Issuer⟩) ∧
    (∀ (r1 r2 : AuthKeyserver) (f1 f2 : keyserverConfig → keyserverConfig × Option Error)
      (m : keyserverConfig),
      f1 keyserverConfig.zero = (m, none) → f2 keyserverConfig.zero = (m, none) →
        (StdEncoding.DecodeString m.Intraservice).2 = none →
        (r1.UnmarshalYAML f1).2 = none ∧ (r2.UnmarshalYAML f2).2 = none ∧
          (r1.UnmarshalYAML f1).1 = (r2.UnmarshalYAML f2).1 ∧
          (r1.UnmarshalYAML f1).1 = ⟨m.API, (StdEncoding.DecodeString m.Intraservice).1⟩) := by
  constructor
  · intro r1 r2 f1 f2 m h1 h2 hd
    unfold AuthPSK.UnmarshalYAML
    rw [h1, h2]
    simp only []
    rcases hdec : StdEncoding.DecodeString m.Key with ⟨s, _ | err⟩
    · simp
    · rw [hdec] at hd
      simp at hd
  · intro r1 r2 f1 f2 m h1 h2 hd
    unfold AuthKeyserver.UnmarshalYAML
    rw [h1, h2]
    simp only []
    rcases hdec : StdEncoding.DecodeString m.Intraservice with ⟨s, _ | err⟩
    · simp
    · rw [hdec] at hd
      simp at hd

/-- Witness of C17: a fresh receiver and one holding other contents, given
the key `c2VjcmV0` with issuer `clair`, end equal; two keyserver receivers
given `dG9rZW4=` likewise. -/
theorem UnmarshalYAML_receiver_independent_witness :
    (AuthPSK.zero.UnmarshalYAML (parsed ⟨ascii "c2VjcmV0", Slice.mk [ascii "clair"]⟩)).1
        = (AuthPSK.UnmarshalYAML ⟨Slice.mk [1, 2, 3], Slice.mk [ascii "old"]⟩
            (parsed ⟨ascii "c2VjcmV0", Slice.mk [ascii "clair"]⟩)).1 ∧
      (AuthKeyserver.zero.UnmarshalYAML (parsed ⟨ascii "new", ascii "dG9rZW4="⟩)).1
        = (AuthKeyserver.UnmarshalYAML ⟨ascii "old", Slice.mk [1, 2, 3]⟩
            (parsed ⟨ascii "new", ascii "dG9rZW4="⟩)).1 :=
  ⟨(UnmarshalYAML_receiver_independent.1 AuthPSK.zero
      ⟨Slice.mk [1, 2, 3], Slice.mk [ascii "old"]⟩
      (parsed ⟨ascii "c2VjcmV0", Slice.mk [ascii "clair"]⟩)
      (parsed ⟨ascii "c2VjcmV0", Slice.mk [ascii "clair"]⟩)
      ⟨ascii "c2VjcmV0", Slice.mk [ascii "clair"]⟩ rfl rfl (by decide)).2.2.1,
    (UnmarshalYAML_receiver_independent.2 AuthKeyserver.zero
      ⟨ascii "old", Slice.mk [1, 2, 3]⟩
      (parsed ⟨ascii "new", ascii "dG9rZW4="⟩) (parsed ⟨ascii "new", ascii "dG9rZW4="⟩)
      ⟨ascii "new", ascii "dG9rZW4="⟩ rfl rfl (by decide)).2.2.1⟩

end Config
